import Mathlib

/-!
Verification of the binary-search-tree core of the tsinghua_ds repository
(src/src/node.rs, src/src/lib.rs, src/src/binary.rs, src/src/avl.rs,
src/src/splay.rs).

A Rust `Option<Box<TreeNode>>` is modelled by the inductive `TreeNode`:
`TreeNode.leaf` is `None` and `TreeNode.node key val height left right` is a
`TreeNode` (i32 keys and values become `Int`, the `usize` height becomes
`Nat`).  The iterative pointer walks of the source (descent loops building
`prev_ptrs`, bottom-up fix-up loops popping them) are rendered as structural
recursion: each recursive frame corresponds to one node pushed on the
ancestor chain, and the code run on that node after the loop (nothing for
the unbalanced tree, `update_height` plus `rebalance` for the AVL tree) is
applied on the way out of the recursion.  The splay pass, which walks the
recorded chain two ancestors at a time, is modelled with an explicit list of
`Frame`s recording, root first, each visited node's key/value/height, its
off-path subtree and the direction the descent took.
-/

/-- Model of `Option<Box<TreeNode>>`: `leaf` is `None`; `node` carries the
fields of `TreeNode` (src/src/node.rs lines 7-18): key, val, height, left,
right. -/
inductive TreeNode where
  | leaf : TreeNode
  | node (key val : Int) (height : Nat) (left right : TreeNode) : TreeNode
deriving DecidableEq, Repr

namespace TreeNode

/-- TreeNode::new (src/src/node.rs lines 29-37): a fresh leaf with height 1. -/
def new (key val : Int) : TreeNode := node key val 1 leaf leaf

/-- The height an optional child contributes: 0 for an absent child, the
stored height field otherwise (this is `map_or(0, |c| c.height)` from
left_height/right_height, src/src/node.rs lines 57-64). -/
def height : TreeNode → Nat
  | leaf => 0
  | node _ _ h _ _ => h

/-- TreeNode::update_height (src/src/node.rs lines 67-69):
height := 1 + max(left_height, right_height). -/
def update_height : TreeNode → TreeNode
  | leaf => leaf
  | node k v _ l r => node k v (1 + max l.height r.height) l r

/-- The `usize as i8` truncating cast used by balance_factor. -/
def toI8 (n : Nat) : Int :=
  if n % 256 < 128 then ((n % 256 : Nat) : Int) else ((n % 256 : Nat) : Int) - 256

/-- TreeNode::balance_factor (src/src/node.rs lines 73-82): left height minus
right height, computed on usize and cast to i8 branch-wise. -/
def balance_factor : TreeNode → Int
  | leaf => 0
  | node _ _ _ l r =>
    if r.height ≤ l.height then toI8 (l.height - r.height)
    else -(toI8 (r.height - l.height))

/-- TreeNode::rotate_left (src/src/node.rs lines 85-110).  Returns the input
unchanged when the right child is absent.  Otherwise the right node's
subtrees are taken, the old right node becomes the new left child while key
and value are swapped between it and the receiver (so the receiver object
keeps its identity and ends up holding the promoted key/value), the
receiver's old left subtree and the right node's old left subtree become the
new left child's children, and the heights of the new left child and of the
receiver are recomputed in that order. -/
def rotate_left : TreeNode → TreeNode
  | leaf => leaf
  | node k v h l r =>
    match r with
    | leaf => node k v h l leaf
    | node rk rv rh rl rr =>
      let right_left_tree := rl
      let right_right_tree := rr
      let left_tree := l
      -- the old right node, key/value swapped with the receiver, rewired:
      let new_left_node := node k v rh left_tree right_left_tree
      update_height (node rk rv h (update_height new_left_node) right_right_tree)

/-- TreeNode::rotate_right (src/src/node.rs lines 112-136), mirror image of
rotate_left. -/
def rotate_right : TreeNode → TreeNode
  | leaf => leaf
  | node k v h l r =>
    match l with
    | leaf => node k v h leaf r
    | node lk lv lh ll lr =>
      let left_right_tree := lr
      let left_left_tree := ll
      let right_tree := r
      let new_right_node := node k v lh left_right_tree right_tree
      update_height (node lk lv h left_left_tree (update_height new_right_node))

/-- TreeNode::rebalance from src/src/node.rs lines 139-163: on balance
factor -2, first rotate_right the right child when its own balance factor is
+1, then rotate_left; on +2, first rotate_left the left child when its own
balance factor is -1, then rotate_right; otherwise do nothing. -/
def rebalance (t : TreeNode) : TreeNode :=
  match t with
  | leaf => leaf
  | node k v h l r =>
    if balance_factor (node k v h l r) = -2 then
      let right_node := if balance_factor r = 1 then rotate_right r else r
      rotate_left (node k v h l right_node)
    else if balance_factor (node k v h l r) = 2 then
      let left_node := if balance_factor l = -1 then rotate_left l else l
      rotate_right (node k v h left_node r)
    else node k v h l r

/-- TreeNode::rebalance as written in src/src/lib.rs lines 146-170.  It is
the same function except that in the +2 branch the sub-check on the left
child's balance factor reads `== 1` (its comment says the check is for a
right-heavy inner node, which would be `== -1` as in src/src/node.rs). -/
def rebalance_lib (t : TreeNode) : TreeNode :=
  match t with
  | leaf => leaf
  | node k v h l r =>
    if balance_factor (node k v h l r) = -2 then
      let right_node := if balance_factor r = 1 then rotate_right r else r
      rotate_left (node k v h l right_node)
    else if balance_factor (node k v h l r) = 2 then
      let left_node := if balance_factor l = 1 then rotate_left l else l
      rotate_right (node k v h left_node r)
    else node k v h l r

/-- In-order traversal of the tree as a list of key/value pairs. -/
def inorder : TreeNode → List (Int × Int)
  | leaf => []
  | node k v _ l r => inorder l ++ (k, v) :: inorder r

/-- The keys of the tree, in in-order. -/
def keysOf (t : TreeNode) : List Int := (inorder t).map Prod.fst

/-- The order invariant exactly as the specification states it: at every
node, every key in the left subtree is strictly below the node's key and
every key in the right subtree strictly above it. -/
def ordered : TreeNode → Bool
  | leaf => true
  | node k _ _ l r =>
    (keysOf l).all (fun x => decide (x < k)) &&
    (keysOf r).all (fun x => decide (k < x)) &&
    ordered l && ordered r

/-- Every stored height field equals 1 + max of the children's heights
(height 0 for an absent child). -/
def heights_ok : TreeNode → Bool
  | leaf => true
  | node _ _ h l r =>
    decide (h = 1 + max l.height r.height) && heights_ok l && heights_ok r

/-- The AVL balance condition on the stored height fields: the two child
heights differ by at most one, at every node. -/
def balanced_stored : TreeNode → Bool
  | leaf => true
  | node _ _ _ l r =>
    decide (l.height ≤ r.height + 1) && decide (r.height ≤ l.height + 1) &&
    balanced_stored l && balanced_stored r

/-- The AVL height invariant as the claim states it: accurate stored heights
and child heights differing by at most one, everywhere. -/
def avl_inv (t : TreeNode) : Bool := heights_ok t && balanced_stored t

/-- The real height of the tree, ignoring the stored height fields. -/
def true_height : TreeNode → Nat
  | leaf => 0
  | node _ _ _ l r => 1 + max (true_height l) (true_height r)

/-- The AVL balance condition on the real heights. -/
def true_balanced : TreeNode → Bool
  | leaf => true
  | node _ _ _ l r =>
    decide (true_height l ≤ true_height r + 1) &&
    decide (true_height r ≤ true_height l + 1) &&
    true_balanced l && true_balanced r

/-- Every stored height field equals 1 (the value TreeNode::new writes). -/
def all_heights_one : TreeNode → Bool
  | leaf => true
  | node _ _ h l r => decide (h = 1) && all_heights_one l && all_heights_one r

/-- The key and value at the root, when the tree is non-empty. -/
def root_pair : TreeNode → Option (Int × Int)
  | leaf => none
  | node k v _ _ _ => some (k, v)

/-- The key at the root, when the tree is non-empty. -/
def root_key (t : TreeNode) : Option Int := (root_pair t).map Prod.fst

end TreeNode

/-- Outcome of the removal descent shared by binary.rs and avl.rs: the key
was not found (no mutation happens and the recorded ancestor chain is
discarded), or the subtree at the target was replaced by a new subtree and
the stored value extracted, or the target is a childless node whose parent
must unlink it (binary.rs lines 119-137, avl.rs lines 142-159). -/
inductive RmRes where
  | notFound : RmRes
  | removed (t : TreeNode) (v : Int) : RmRes
  | leafTarget (v : Int) : RmRes
deriving DecidableEq, Repr

namespace BinarySearchTree

/-- BinarySearchTree::new (src/src/binary.rs lines 12-14): the tree is
seeded with a single root node. -/
def new (root_key root_val : Int) : TreeNode := TreeNode.new root_key root_val

/-- BinarySearchTree::search (src/src/binary.rs lines 19-32): plain ordered
descent, no mutation. -/
def search : TreeNode → Int → Option Int
  | .leaf, _ => none
  | .node k v _ l r, key =>
    if key > k then search r key
    else if key < k then search l key
    else some v

/-- The descent loop of BinarySearchTree::insert (src/src/binary.rs lines
36-54), one recursion step per visited node; reaching an absent child slot
attaches a fresh leaf, an equal key overwrites the value in place. -/
def insertGo : TreeNode → Int → Int → TreeNode
  | .leaf, key, val => TreeNode.new key val
  | .node k v h l r, key, val =>
    if key > k then .node k v h l (insertGo r key val)
    else if key < k then .node k v h (insertGo l key val) r
    else .node k val h l r

/-- BinarySearchTree::insert (src/src/binary.rs lines 34-55).  The descent
loop starts from `self.0.as_mut()`; when the tree has no root the loop body
never runs, so inserting into an empty tree does nothing. -/
def insert (t : TreeNode) (key val : Int) : TreeNode :=
  match t with
  | .leaf => .leaf
  | .node .. => insertGo t key val

/-- The walk of binary.rs lines 91-107 (and avl.rs lines 112-128 without the
fix-ups): descend along left children from the right subtree of the deletion
target, unlink the leftmost node (replacing it in its parent's left slot by
its own right subtree) and return the new subtree together with the unlinked
node's key and value. -/
def spliceMin : TreeNode → TreeNode × Int × Int
  | .leaf => (.leaf, 0, 0)
  | .node k v h l r =>
    match l with
    | .leaf => (r, k, v)
    | .node lk lv _ .leaf lr => (.node k v h lr r, lk, lv)
    | .node lk lv lh ll lr =>
      let res := spliceMin (.node lk lv lh ll lr)
      (.node k v h res.1 r, res.2.1, res.2.2)

/-- The removal descent of BinarySearchTree::remove (src/src/binary.rs lines
57-140).  A found node with two children is handled by the successor splice
(quick path when the right child has no left child, otherwise spliceMin); a
node with one child is overwritten by that child; a childless node reports
leafTarget so its parent unlinks a child — choosing the child whose VALUE
equals the target's value (binary.rs lines 120-130), exactly as the source
does. -/
def removeGo : TreeNode → Int → RmRes
  | .leaf, _ => .notFound
  | .node k v h l r, key =>
    if key > k then
      match removeGo r key with
      | .notFound => .notFound
      | .removed r' rv => .removed (.node k v h l r') rv
      | .leafTarget tv =>
        match l with
        | .node _ lv _ _ _ =>
          if lv = tv then .removed (.node k v h .leaf r) lv
          else .removed (.node k v h l .leaf) tv
        | .leaf => .removed (.node k v h l .leaf) tv
    else if key < k then
      match removeGo l key with
      | .notFound => .notFound
      | .removed l' rv => .removed (.node k v h l' r) rv
      | .leafTarget tv => .removed (.node k v h .leaf r) tv
    else
      match l, r with
      | .leaf, .leaf => .leafTarget v
      | .leaf, _ => .removed r v
      | _, .leaf => .removed l v
      | _, .node rk rv _ .leaf rr => .removed (.node rk rv h l rr) v
      | _, _ =>
        let res := spliceMin r
        .removed (.node res.2.1 res.2.2 h l res.1) v

/-- BinarySearchTree::remove (src/src/binary.rs lines 57-140): returns the
new tree and the removed value; a missing key returns the tree unchanged
with none; a childless root empties the tree. -/
def remove (t : TreeNode) (key : Int) : TreeNode × Option Int :=
  match removeGo t key with
  | .notFound => (t, none)
  | .removed t' rv => (t', some rv)
  | .leafTarget rv => (.leaf, some rv)

end BinarySearchTree

namespace AVLTree

/-- AVLTree::new (src/src/avl.rs lines 12-14). -/
def new (root_key root_val : Int) : TreeNode := TreeNode.new root_key root_val

/-- AVLTree::search (src/src/avl.rs lines 19-32), identical code to
BinarySearchTree::search. -/
def search : TreeNode → Int → Option Int := BinarySearchTree.search

/-- The descent loop of AVLTree::insert (src/src/avl.rs lines 35-65): as the
binary version, but every node pushed on the ancestor chain gets
update_height then rebalance applied on the bottom-up fix-up pass. -/
def insertGo : TreeNode → Int → Int → TreeNode
  | .leaf, key, val => TreeNode.new key val
  | .node k v h l r, key, val =>
    if key > k then
      TreeNode.rebalance (TreeNode.update_height (.node k v h l (insertGo r key val)))
    else if key < k then
      TreeNode.rebalance (TreeNode.update_height (.node k v h (insertGo l key val) r))
    else .node k val h l r

/-- AVLTree::insert (src/src/avl.rs lines 35-65).  As in binary.rs, the
descent loop never runs when the tree has no root, so inserting into an
empty tree does nothing. -/
def insert (t : TreeNode) (key val : Int) : TreeNode :=
  match t with
  | .leaf => .leaf
  | .node .. => insertGo t key val

/-- The leftmost-splice walk of AVLTree::remove (src/src/avl.rs lines
112-133).  The inner ancestor stack holds every node on the path from the
target's right child down to the parent of the leftmost node; that parent is
popped FIRST (line 122) and used for the unlink without receiving any
update_height/rebalance, and only the remaining, strictly higher nodes are
fixed up by the loop at lines 129-133. -/
def spliceMin : TreeNode → TreeNode × Int × Int
  | .leaf => (.leaf, 0, 0)
  | .node k v h l r =>
    match l with
    | .leaf => (r, k, v)
    | .node lk lv _ .leaf lr => (.node k v h lr r, lk, lv)
    | .node lk lv lh ll lr =>
      let res := spliceMin (.node lk lv lh ll lr)
      (TreeNode.rebalance (TreeNode.update_height (.node k v h res.1 r)), res.2.1, res.2.2)

/-- The removal descent of AVLTree::remove (src/src/avl.rs lines 68-170).
Ancestors recorded during the descent receive update_height and rebalance on
the way back up, and so does the parent that unlinks a childless target
(lines 155-156) and the target itself on the quick two-children path (lines
101-102); but on the general two-children path (lines 112-133) the target
node is given its successor's key/value WITHOUT any update_height/rebalance
of its own, exactly as in the source. -/
def removeGo : TreeNode → Int → RmRes
  | .leaf, _ => .notFound
  | .node k v h l r, key =>
    if key > k then
      match removeGo r key with
      | .notFound => .notFound
      | .removed r' rv =>
        .removed (TreeNode.rebalance (TreeNode.update_height (.node k v h l r'))) rv
      | .leafTarget tv =>
        match l with
        | .node _ lv _ _ _ =>
          if lv = tv then
            .removed (TreeNode.rebalance (TreeNode.update_height (.node k v h .leaf r))) lv
          else
            .removed (TreeNode.rebalance (TreeNode.update_height (.node k v h l .leaf))) tv
        | .leaf =>
          .removed (TreeNode.rebalance (TreeNode.update_height (.node k v h l .leaf))) tv
    else if key < k then
      match removeGo l key with
      | .notFound => .notFound
      | .removed l' rv =>
        .removed (TreeNode.rebalance (TreeNode.update_height (.node k v h l' r))) rv
      | .leafTarget tv =>
        .removed (TreeNode.rebalance (TreeNode.update_height (.node k v h .leaf r))) tv
    else
      match l, r with
      | .leaf, .leaf => .leafTarget v
      | .leaf, _ => .removed r v
      | _, .leaf => .removed l v
      | _, .node rk rv _ .leaf rr =>
        .removed (TreeNode.rebalance (TreeNode.update_height (.node rk rv h l rr))) v
      | _, _ =>
        let res := spliceMin r
        .removed (.node res.2.1 res.2.2 h l res.1) v

/-- AVLTree::remove (src/src/avl.rs lines 68-170). -/
def remove (t : TreeNode) (key : Int) : TreeNode × Option Int :=
  match removeGo t key with
  | .notFound => (t, none)
  | .removed t' rv => (t', some rv)
  | .leafTarget rv => (.leaf, some rv)

end AVLTree

/-- TreeNode child direction (ChildType, src/src/node.rs lines 21-24). -/
inductive ChildType where
  | left : ChildType
  | right : ChildType
deriving DecidableEq, Repr

/-- One entry of the ancestor chain recorded by SplayTree::searchin
(src/src/splay.rs lines 16-36): the visited node's key, value and stored
height, the subtree on the side the descent did NOT take, and the direction
it did take (which is what TreeNode::who_child recovers in the source). -/
structure Frame where
  key : Int
  val : Int
  height : Nat
  other : TreeNode
  dir : ChildType
deriving DecidableEq, Repr

namespace SplayTree

/-- The descent loop of SplayTree::searchin (src/src/splay.rs lines 20-30):
every visited node is pushed; the loop stops on an equal key or when the
next child is absent.  Returns the chain of strict ancestors (root first)
and the last visited node, which is the node the source pops at line 32 and
hands to TreeNode::splay. -/
def descend : TreeNode → Int → List Frame × TreeNode
  | .leaf, _ => ([], .leaf)
  | .node k v h l r, key =>
    if key > k then
      match r with
      | .leaf => ([], .node k v h l r)
      | .node .. =>
        let res := descend r key
        (⟨k, v, h, l, .right⟩ :: res.1, res.2)
    else if key < k then
      match l with
      | .leaf => ([], .node k v h l r)
      | .node .. =>
        let res := descend l key
        (⟨k, v, h, r, .left⟩ :: res.1, res.2)
    else ([], .node k v h l r)

/-- One two-level step of TreeNode::splay (src/src/node.rs lines 188-297):
given the current node's subtree and the frames of its parent and
grandparent (in that order, as popped from the chain), produce the subtree
that replaces the grandparent.  The four cases are the zig-zig, zag-zag,
zig-zag and zag-zig relinks of the source; in each, the node's key/value are
swapped with the grandparent object's and the three update_height calls run
bottom-up, so the resulting root carries the splayed key/value. -/
def applyPair (v : TreeNode) (fp fg : Frame) : TreeNode :=
  match v with
  | .leaf => .leaf
  | .node vk vv vh vl vr =>
    match fp.dir, fg.dir with
    | .left, .left =>
      TreeNode.update_height (.node vk vv fg.height vl
        (TreeNode.update_height (.node fp.key fp.val fp.height vr
          (TreeNode.update_height (.node fg.key fg.val vh fp.other fg.other)))))
    | .right, .right =>
      TreeNode.update_height (.node vk vv fg.height
        (TreeNode.update_height (.node fp.key fp.val fp.height
          (TreeNode.update_height (.node fg.key fg.val vh fg.other fp.other)) vl)) vr)
    | .left, .right =>
      TreeNode.update_height (.node vk vv fg.height
        (TreeNode.update_height (.node fg.key fg.val vh fg.other vl))
        (TreeNode.update_height (.node fp.key fp.val fp.height vr fp.other)))
    | .right, .left =>
      TreeNode.update_height (.node vk vv fg.height
        (TreeNode.update_height (.node fp.key fp.val fp.height fp.other vl))
        (TreeNode.update_height (.node fg.key fg.val vh vr fg.other)))

/-- The while-let loop of TreeNode::splay (src/src/node.rs line 184): pop
the parent and grandparent frames, deepest first, and fold applyPair. -/
def splayPairs : TreeNode → List Frame → TreeNode
  | v, fp :: fg :: rest => splayPairs (applyPair v fp fg) rest
  | v, _ => v

/-- The final single rotation of TreeNode::splay (src/src/node.rs lines
300-311): rotate the remaining ancestor toward the splayed node. -/
def zigStep (v : TreeNode) (f : Frame) : TreeNode :=
  match f.dir with
  | .left => TreeNode.rotate_right (.node f.key f.val f.height v f.other)
  | .right => TreeNode.rotate_left (.node f.key f.val f.height f.other v)

/-- TreeNode::splay (src/src/node.rs lines 177-312): when the ancestor chain
has odd length its FIRST element (the root) is set aside (line 179) for a
final single rotation; the rest is consumed two at a time from the deepest
end. -/
def splay (v : TreeNode) (prev : List Frame) : TreeNode :=
  if prev.length % 2 = 1 then
    match prev with
    | f :: rest => zigStep (splayPairs v rest.reverse) f
    | [] => v
  else splayPairs v prev.reverse

/-- SplayTree::searchin (src/src/splay.rs lines 16-36): descend for the key,
then splay the last visited node to the root; a no-op on an empty tree. -/
def searchin (t : TreeNode) (key : Int) : TreeNode :=
  match t with
  | .leaf => .leaf
  | .node .. =>
    let res := descend t key
    splay res.2 res.1

/-- SplayTree::new (src/src/splay.rs lines 12-14). -/
def new (root_key root_val : Int) : TreeNode := TreeNode.new root_key root_val

/-- SplayTree::search (src/src/splay.rs lines 41-52): splay via searchin,
then report the root's value when its key matches.  Returns the mutated tree
together with the result. -/
def search (t : TreeNode) (key : Int) : TreeNode × Option Int :=
  let t2 := searchin t key
  match t2 with
  | .leaf => (.leaf, none)
  | .node k v _ _ _ => if k = key then (t2, some v) else (t2, none)

/-- SplayTree::insert (src/src/splay.rs lines 54-79): splay, then on an
equal root key overwrite the value; otherwise overwrite the root's key/value
with the new pair and hang the old pair, together with the old subtree on
its side, as a fresh child below the root.  When the tree is empty the
searchin is a no-op and the `if let Some(node)` body never runs, so the
insert does nothing. -/
def insert (t : TreeNode) (key val : Int) : TreeNode :=
  let t2 := searchin t key
  match t2 with
  | .leaf => .leaf
  | .node k v h l r =>
    if k = key then .node k val h l r
    else if k < key then
      let old_node := TreeNode.update_height (.node k v 1 l .leaf)
      TreeNode.update_height (.node key val h old_node r)
    else
      let old_node := TreeNode.update_height (.node k v 1 .leaf r)
      TreeNode.update_height (.node key val h l old_node)

/-- SplayTree::remove (src/src/splay.rs lines 81-126): splay, and when the
root's key matches remove the root by promoting its left subtree (no right
child), by the quick successor splice (right child without left child, with
an update_height, line 100), or by unlinking the leftmost node of the right
subtree (lines 104-121, the same walk as binary.rs, no inner fix-ups, one
update_height of the root).  A missing key leaves the splayed tree and
returns none. -/
def remove (t : TreeNode) (key : Int) : TreeNode × Option Int :=
  let t2 := searchin t key
  match t2 with
  | .leaf => (.leaf, none)
  | .node k v h l r =>
    if k = key then
      match r with
      | .leaf => (l, some v)
      | .node rk rv _ .leaf rr =>
        (TreeNode.update_height (.node rk rv h l rr), some v)
      | .node .. =>
        let res := BinarySearchTree.spliceMin r
        (TreeNode.update_height (.node res.2.1 res.2.2 h l res.1), some v)
    else (t2, none)

end SplayTree

/-- A client operation of the uniform BST contract. -/
inductive Op where
  | search (key : Int) : Op
  | insert (key val : Int) : Op
  | remove (key : Int) : Op
deriving DecidableEq, Repr

/-- Effect of one operation on a BinarySearchTree (search does not touch the
tree). -/
def BinarySearchTree.applyOp (t : TreeNode) : Op → TreeNode
  | .search _ => t
  | .insert k v => BinarySearchTree.insert t k v
  | .remove k => (BinarySearchTree.remove t k).1

/-- Effect of one operation on an AVLTree (search does not touch the
tree). -/
def AVLTree.applyOp (t : TreeNode) : Op → TreeNode
  | .search _ => t
  | .insert k v => AVLTree.insert t k v
  | .remove k => (AVLTree.remove t k).1

/-- Effect of one operation on a SplayTree; search splays and therefore
mutates the tree. -/
def SplayTree.applyOp (t : TreeNode) : Op → TreeNode
  | .search k => (SplayTree.search t k).1
  | .insert k v => SplayTree.insert t k v
  | .remove k => (SplayTree.remove t k).1

/-- The tree reached from BinarySearchTree::new after a list of
operations. -/
def BinarySearchTree.run (root_key root_val : Int) (ops : List Op) : TreeNode :=
  ops.foldl BinarySearchTree.applyOp (BinarySearchTree.new root_key root_val)

/-- The tree reached from AVLTree::new after a list of operations. -/
def AVLTree.run (root_key root_val : Int) (ops : List Op) : TreeNode :=
  ops.foldl AVLTree.applyOp (AVLTree.new root_key root_val)

/-- The tree reached from SplayTree::new after a list of operations. -/
def SplayTree.run (root_key root_val : Int) (ops : List Op) : TreeNode :=
  ops.foldl SplayTree.applyOp (SplayTree.new root_key root_val)

/-- Sortedness of an association list by strictly increasing keys. -/
def ksorted (L : List (Int × Int)) : Prop :=
  L.Pairwise (fun a b => a.1 < b.1)

/-- Association lookup in a key/value list, first match wins. -/
def assoc : List (Int × Int) → Int → Option Int
  | [], _ => none
  | p :: rest, q => if p.1 = q then some p.2 else assoc rest q

/-- Insert-or-replace into a key/value list: placed before the first key not
below it, replacing an equal key. -/
def upsert : List (Int × Int) → Int → Int → List (Int × Int)
  | [], k, v => [(k, v)]
  | p :: rest, k, v =>
    if k < p.1 then (k, v) :: p :: rest
    else if k = p.1 then (k, v) :: rest
    else p :: upsert rest k v

/-- What the removal result guarantees about the traversal: on a successful
removal the new subtree's traversal is a sublist of the old one. -/
def RmRes.inorder_ok (t : TreeNode) : RmRes → Prop
  | .notFound => True
  | .removed t2 _ => List.Sublist (TreeNode.inorder t2) (TreeNode.inorder t)
  | .leafTarget _ => True

/-- In-order effect of re-attaching one recorded ancestor frame around the
subtree that replaced its on-path child. -/
def Frame.wrap (f : Frame) (inner : List (Int × Int)) : List (Int × Int) :=
  match f.dir with
  | .left => inner ++ (f.key, f.val) :: TreeNode.inorder f.other
  | .right => TreeNode.inorder f.other ++ (f.key, f.val) :: inner

/-- Reconstruction of the original tree from the recorded ancestor chain
(root first) and the last visited subtree. -/
def SplayTree.rebuild : List Frame → TreeNode → TreeNode
  | [], v => v
  | f :: fs, v =>
    match f.dir with
    | .left => .node f.key f.val f.height (SplayTree.rebuild fs v) f.other
    | .right => .node f.key f.val f.height f.other (SplayTree.rebuild fs v)

def RmRes.heights_ok1 : RmRes → Prop
  | .notFound => True
  | .removed t2 _ => TreeNode.all_heights_one t2 = true
  | .leafTarget _ => True

/-- The value of the last insert performed for a given key in a list of
key/value inserts (none when the key is never inserted). -/
def last_inserted (ops : List (Int × Int)) (q : Int) : Option Int :=
  ops.foldl (fun acc p => if p.1 = q then some p.2 else acc) none

/-- Tree built by seeding a BinarySearchTree and then performing a list of
inserts. -/
def BinarySearchTree.runInserts (k0 v0 : Int) (ops : List (Int × Int)) : TreeNode :=
  ops.foldl (fun t p => BinarySearchTree.insert t p.1 p.2)
    (BinarySearchTree.new k0 v0)

/-- Tree built by seeding an AVLTree and then performing a list of
inserts. -/
def AVLTree.runInserts (k0 v0 : Int) (ops : List (Int × Int)) : TreeNode :=
  ops.foldl (fun t p => AVLTree.insert t p.1 p.2) (AVLTree.new k0 v0)

/-- Tree built by seeding a SplayTree and then performing a list of
inserts. -/
def SplayTree.runInserts (k0 v0 : Int) (ops : List (Int × Int)) : TreeNode :=
  ops.foldl (fun t p => SplayTree.insert t p.1 p.2) (SplayTree.new k0 v0)

/-! Concrete inputs used by the claim theorems below. -/

/-- A node with balance factor +2 whose left child has balance factor -1
(keys 3, 1, 2): the double-rotation case of the rebalance step. -/
def c1_left : TreeNode := .node 1 10 2 .leaf (.node 2 20 1 .leaf .leaf)

/-- The full +2 node for the C1 check. -/
def c1_t : TreeNode := .node 3 30 3 c1_left .leaf

/-- Insert sequence reaching, from AVLTree::new(10, 1), the AVL tree
10[5[3[2,·],7], 20[15,·]]; every intermediate tree is height-balanced and no
rotation fires. -/
def c2_seq : List Op :=
  [.insert 5 2, .insert 20 3, .insert 3 4, .insert 7 5, .insert 15 6, .insert 2 7]

/-- Claim C1 — code_bug evidence.  At a node with balance factor +2 whose
left child has balance factor -1, the claim (and TreeNode::rebalance of
src/src/node.rs) demands the double rotation: rotate_left the left child,
then rotate_right the node, which yields the balanced tree rooted at key 2.
The copy of TreeNode::rebalance in src/src/lib.rs lines 146-170 instead
checks the left child's balance factor against +1 (contradicting its own
comment), performs only the single right rotation, and leaves the node with
balance factor -2. -/
theorem c1_rebalance_librs_divergence :
    TreeNode.balance_factor c1_t = 2 ∧
    TreeNode.balance_factor c1_left = -1 ∧
    TreeNode.rebalance c1_t =
      TreeNode.rotate_right (.node 3 30 3 (TreeNode.rotate_left c1_left) .leaf) ∧
    TreeNode.rebalance c1_t =
      .node 2 20 2 (.node 1 10 1 .leaf .leaf) (.node 3 30 1 .leaf .leaf) ∧
    TreeNode.rebalance_lib c1_t = TreeNode.rotate_right c1_t ∧
    TreeNode.balance_factor (TreeNode.rebalance_lib c1_t) = -2 ∧
    TreeNode.rebalance c1_t ≠ TreeNode.rebalance_lib c1_t := by
  decide

/-- Claim C2 — code_bug evidence.  After the inserts of c2_seq the AVL tree
satisfies the height invariant (accurate stored heights, balance factors in
range) and the order invariant, but removing key 10 — a two-children node
whose right child has a left child, i.e. the general leftmost-splice path of
AVLTree::remove — leaves stale stored heights (node 20 keeps height 2 with
no children) and a really unbalanced root (left height 3, right height 1),
because that path never recomputes height or rebalances the spliced parent
and the target node. -/
theorem c2_avl_invariant_violated_by_remove :
    TreeNode.avl_inv (AVLTree.run 10 1 c2_seq) = true ∧
    TreeNode.ordered (AVLTree.run 10 1 c2_seq) = true ∧
    (AVLTree.remove (AVLTree.run 10 1 c2_seq) 10).2 = some 1 ∧
    TreeNode.heights_ok (AVLTree.remove (AVLTree.run 10 1 c2_seq) 10).1 = false ∧
    TreeNode.avl_inv (AVLTree.remove (AVLTree.run 10 1 c2_seq) 10).1 = false ∧
    TreeNode.true_balanced (AVLTree.remove (AVLTree.run 10 1 c2_seq) 10).1 = false := by
  decide

/-- Claim C3 — code_bug evidence.  The empty tree is reachable in every
engine (removing the seeded root empties it), and insert on the empty tree
is a no-op in every engine — the descent loop of binary.rs/avl.rs and the
`if let Some(node)` of splay.rs never run without a root — so no engine
transitions Empty to Populated. -/
theorem c3_insert_on_empty_is_noop :
    (BinarySearchTree.remove (BinarySearchTree.new 1 1) 1).1 = .leaf ∧
    (AVLTree.remove (AVLTree.new 1 1) 1).1 = .leaf ∧
    (SplayTree.remove (SplayTree.new 1 1) 1).1 = .leaf ∧
    BinarySearchTree.insert .leaf 2 5 = .leaf ∧
    AVLTree.insert .leaf 2 5 = .leaf ∧
    SplayTree.insert .leaf 2 5 = .leaf := by
  decide

/-- Claim C4 — code_bug evidence.  In the tree built by new(10,5),
insert(5,5), insert(20,5) — reachable, ordered, but with duplicate VALUES —
removing the childless key 20 makes the parent compare child VALUES
(binary.rs lines 120-130, avl.rs lines 143-153) and unlink its LEFT child
(key 5) instead; remove(20) returns some 5 yet search(20) still finds key 20
afterwards, in both the unbalanced and the AVL engine. -/
theorem c4_remove_then_search_finds_key :
    (BinarySearchTree.remove (BinarySearchTree.insert
        (BinarySearchTree.insert (BinarySearchTree.new 10 5) 5 5) 20 5) 20).2 = some 5 ∧
    BinarySearchTree.search
      (BinarySearchTree.remove (BinarySearchTree.insert
        (BinarySearchTree.insert (BinarySearchTree.new 10 5) 5 5) 20 5) 20).1 20 = some 5 ∧
    (AVLTree.remove (AVLTree.insert
        (AVLTree.insert (AVLTree.new 10 5) 5 5) 20 5) 20).2 = some 5 ∧
    AVLTree.search
      (AVLTree.remove (AVLTree.insert
        (AVLTree.insert (AVLTree.new 10 5) 5 5) 20 5) 20).1 20 = some 5 := by
  decide

/-- Claim C8 — the rotation primitives, applied to a node with the required
child present, perform exactly the transplantation described by the spec.
For rotate_left on node (k,v,h) with left subtree l and present right child
(rk,rv,rh) carrying subtrees rl, rr: the node ends up holding the promoted
key/value (rk,rv) in its original height slot h (the object identity is kept
by swapping key/value, which is what the model's definition does); its right
slot becomes the promoted node's former right subtree rr; the new left child
is the former right node object, now holding (k,v), whose left child is the
node's former left subtree l and whose right child is the promoted node's
former left subtree rl; the height of the new left child is recomputed
before the height of the node itself (the outer update_height reads the
inner one's result).  rotate_right is the exact mirror, and a node whose
required child is absent is returned unchanged. -/
theorem c8_rotation_transplantation (k v : Int) (h : Nat) (l : TreeNode)
    (rk rv : Int) (rh : Nat) (rl rr : TreeNode)
    (lk lv : Int) (lh : Nat) (ll lr r : TreeNode) :
    TreeNode.rotate_left (.node k v h l (.node rk rv rh rl rr)) =
      TreeNode.update_height
        (.node rk rv h (TreeNode.update_height (.node k v rh l rl)) rr) ∧
    TreeNode.height (TreeNode.rotate_left (.node k v h l (.node rk rv rh rl rr))) =
      1 + max (1 + max (TreeNode.height l) (TreeNode.height rl)) (TreeNode.height rr) ∧
    TreeNode.rotate_left (.node k v h l .leaf) = .node k v h l .leaf ∧
    TreeNode.rotate_right (.node k v h (.node lk lv lh ll lr) r) =
      TreeNode.update_height
        (.node lk lv h ll (TreeNode.update_height (.node k v lh lr r))) ∧
    TreeNode.height (TreeNode.rotate_right (.node k v h (.node lk lv lh ll lr) r)) =
      1 + max (TreeNode.height ll) (1 + max (TreeNode.height lr) (TreeNode.height r)) ∧
    TreeNode.rotate_right (.node k v h .leaf r) = .node k v h .leaf r := by
  refine ⟨rfl, ?_, rfl, rfl, ?_, rfl⟩ <;>
    simp [TreeNode.rotate_left, TreeNode.rotate_right, TreeNode.update_height,
      TreeNode.height]

/-! Semantic toolkit: in-order traversal preservation, sortedness, and an
association-list view of search. -/

namespace TreeNode

theorem inorder_update_height (t : TreeNode) : inorder (update_height t) = inorder t := by
  cases t <;> rfl

theorem height_update_height (k v : Int) (h : Nat) (l r : TreeNode) :
    height (update_height (node k v h l r)) = 1 + max l.height r.height := rfl

theorem inorder_rotate_left (t : TreeNode) : inorder (rotate_left t) = inorder t := by
  cases t with
  | leaf => rfl
  | node k v h l r =>
    cases r with
    | leaf => rfl
    | node rk rv rh rl rr =>
      simp [rotate_left, inorder, inorder_update_height, update_height]

theorem inorder_rotate_right (t : TreeNode) : inorder (rotate_right t) = inorder t := by
  cases t with
  | leaf => rfl
  | node k v h l r =>
    cases l with
    | leaf => rfl
    | node lk lv lh ll lr =>
      simp [rotate_right, inorder, inorder_update_height, update_height]

theorem inorder_rebalance (t : TreeNode) : inorder (rebalance t) = inorder t := by
  cases t with
  | leaf => rfl
  | node k v h l r =>
    simp only [rebalance]
    split_ifs <;>
      simp [inorder_rotate_left, inorder_rotate_right, inorder]

theorem inorder_rebalance_lib (t : TreeNode) : inorder (rebalance_lib t) = inorder t := by
  cases t with
  | leaf => rfl
  | node k v h l r =>
    simp only [rebalance_lib]
    split_ifs <;>
      simp [inorder_rotate_left, inorder_rotate_right, inorder]

theorem keysOf_leaf : keysOf .leaf = [] := rfl

theorem keysOf_node (k v : Int) (h : Nat) (l r : TreeNode) :
    keysOf (node k v h l r) = keysOf l ++ k :: keysOf r := by
  simp [keysOf, inorder]

end TreeNode

theorem ksorted_nil : ksorted [] := List.Pairwise.nil

/-- The recursive order invariant is equivalent to strict sortedness of the
in-order key list. -/
theorem ordered_iff_ksorted (t : TreeNode) :
    TreeNode.ordered t = true ↔ ksorted (TreeNode.inorder t) := by
  induction t with
  | leaf => simp [TreeNode.ordered, ksorted, TreeNode.inorder]
  | node k v h l r ihl ihr =>
    simp only [TreeNode.ordered, ksorted, TreeNode.inorder, Bool.and_eq_true,
      List.all_eq_true, decide_eq_true_eq, List.pairwise_append,
      List.pairwise_cons, TreeNode.keysOf, List.mem_map] at *
    constructor
    · rintro ⟨⟨⟨hL, hR⟩, hl⟩, hr⟩
      refine ⟨ihl.mp hl, ⟨fun b hb => hR b.1 ⟨b, hb, rfl⟩, ihr.mp hr⟩, ?_⟩
      intro a ha b hb
      rcases List.mem_cons.mp hb with rfl | hb
      · exact hL a.1 ⟨a, ha, rfl⟩
      · exact lt_trans (hL a.1 ⟨a, ha, rfl⟩) (hR b.1 ⟨b, hb, rfl⟩)
    · rintro ⟨hl, ⟨hR, hr⟩, hmix⟩
      refine ⟨⟨⟨?_, ?_⟩, ihl.mpr hl⟩, ihr.mpr hr⟩
      · rintro x ⟨a, ha, rfl⟩
        exact hmix a ha (k, v) (List.mem_cons_self _ _)
      · rintro x ⟨b, hb, rfl⟩
        exact hR b hb

theorem assoc_eq_none (M : List (Int × Int)) (q : Int) (h : ∀ p ∈ M, p.1 ≠ q) :
    assoc M q = none := by
  induction M with
  | nil => rfl
  | cons p rest ih =>
    simp only [assoc, if_neg (h p (List.mem_cons_self _ _))]
    exact ih fun p hp => h p (List.mem_cons_of_mem _ hp)

theorem assoc_append_left_skip (L M : List (Int × Int)) (q : Int)
    (h : ∀ p ∈ L, p.1 ≠ q) : assoc (L ++ M) q = assoc M q := by
  induction L with
  | nil => rfl
  | cons p rest ih =>
    simp only [List.cons_append, assoc, if_neg (h p (List.mem_cons_self _ _))]
    exact ih fun p hp => h p (List.mem_cons_of_mem _ hp)

theorem assoc_append_right_skip (L M : List (Int × Int)) (q : Int)
    (h : ∀ p ∈ M, p.1 ≠ q) : assoc (L ++ M) q = assoc L q := by
  induction L with
  | nil => exact assoc_eq_none M q h
  | cons p rest ih =>
    by_cases hp : p.1 = q <;> simp [assoc, hp, ih]

theorem assoc_of_mem (L : List (Int × Int)) (k v : Int)
    (hs : ksorted L) (hm : (k, v) ∈ L) : assoc L k = some v := by
  induction L with
  | nil => cases hm
  | cons p rest ih =>
    rcases List.mem_cons.mp hm with rfl | hm
    · simp [assoc]
    · have hk : p.1 < k := (List.pairwise_cons.mp hs).1 (k, v) hm
      have : p.1 ≠ k := ne_of_lt hk
      simp only [assoc, if_neg this]
      exact ih (List.pairwise_cons.mp hs).2 hm

/-- Unpacking the order invariant at a node. -/
theorem ordered_node_parts (k v : Int) (h : Nat) (l r : TreeNode)
    (ho : TreeNode.ordered (.node k v h l r) = true) :
    (∀ x ∈ TreeNode.keysOf l, x < k) ∧ (∀ x ∈ TreeNode.keysOf r, k < x) ∧
    TreeNode.ordered l = true ∧ TreeNode.ordered r = true := by
  simpa [TreeNode.ordered, Bool.and_eq_true, List.all_eq_true, decide_eq_true_eq,
    and_assoc] using ho

theorem mem_keysOf_of_mem_inorder {t : TreeNode} {p : Int × Int}
    (hp : p ∈ TreeNode.inorder t) : p.1 ∈ TreeNode.keysOf t :=
  List.mem_map.mpr ⟨p, hp, rfl⟩

/-- Under the order invariant, the ordered descent of
BinarySearchTree::search (= AVLTree::search) is association lookup in the
in-order list. -/
theorem search_eq_assoc : ∀ (t : TreeNode), TreeNode.ordered t = true →
    ∀ q, BinarySearchTree.search t q = assoc (TreeNode.inorder t) q
  | .leaf, _, q => rfl
  | .node k v h l r, ho, q => by
    obtain ⟨hL, hR, hl, hr⟩ := ordered_node_parts k v h l r ho
    simp only [BinarySearchTree.search, TreeNode.inorder]
    split_ifs with h1 h2
    · rw [search_eq_assoc r hr q,
        assoc_append_left_skip _ _ _
          (fun p hp => ne_of_lt (lt_trans (hL p.1 (mem_keysOf_of_mem_inorder hp)) h1))]
      simp only [assoc, if_neg (ne_of_lt h1)]
    · rw [search_eq_assoc l hl q,
        assoc_append_right_skip _ _ _ ?_]
      intro p hp
      rcases List.mem_cons.mp hp with rfl | hp
      · exact ne_of_gt h2
      · exact ne_of_gt (lt_trans h2 (hR p.1 (mem_keysOf_of_mem_inorder hp)))
    · have : k = q := by omega
      subst this
      rw [assoc_append_left_skip _ _ _
          (fun p hp => ne_of_lt (hL p.1 (mem_keysOf_of_mem_inorder hp)))]
      simp [assoc]

theorem mem_upsert (L : List (Int × Int)) (k v : Int) :
    ∀ x ∈ upsert L k v, x = (k, v) ∨ x ∈ L := by
  induction L with
  | nil => intro x hx; simpa [upsert] using hx
  | cons p rest ih =>
    intro x hx
    simp only [upsert] at hx
    split_ifs at hx with h1 h2
    · rcases List.mem_cons.mp hx with rfl | hx
      · exact Or.inl rfl
      · exact Or.inr hx
    · rcases List.mem_cons.mp hx with rfl | hx
      · exact Or.inl rfl
      · exact Or.inr (List.mem_cons_of_mem _ hx)
    · rcases List.mem_cons.mp hx with rfl | hx
      · exact Or.inr (List.mem_cons_self _ _)
      · rcases ih x hx with h | h
        · exact Or.inl h
        · exact Or.inr (List.mem_cons_of_mem _ h)

theorem upsert_ksorted (L : List (Int × Int)) (k v : Int) (hs : ksorted L) :
    ksorted (upsert L k v) := by
  induction L with
  | nil => simp [upsert, ksorted]
  | cons p rest ih =>
    obtain ⟨hp, hrest⟩ := List.pairwise_cons.mp hs
    simp only [upsert]
    split_ifs with h1 h2
    · exact List.pairwise_cons.mpr
        ⟨by
          intro b hb
          rcases List.mem_cons.mp hb with rfl | hb
          · exact h1
          · exact lt_trans h1 (hp b hb), hs⟩
    · exact List.pairwise_cons.mpr ⟨by
        intro b hb
        rw [h2]
        exact hp b hb, hrest⟩
    · refine List.pairwise_cons.mpr ⟨?_, ih hrest⟩
      intro b hb
      rcases mem_upsert rest k v b hb with rfl | hb
      · omega
      · exact hp b hb

theorem assoc_upsert_self (L : List (Int × Int)) (k v : Int) :
    assoc (upsert L k v) k = some v := by
  induction L with
  | nil => simp [upsert, assoc]
  | cons p rest ih =>
    simp only [upsert]
    split_ifs with h1 h2
    · simp [assoc]
    · simp [assoc]
    · have : p.1 ≠ k := by omega
      simp [assoc, this, ih]

theorem assoc_upsert_of_ne (L : List (Int × Int)) (k v q : Int) (hq : q ≠ k) :
    assoc (upsert L k v) q = assoc L q := by
  have hk : ¬ (k = q) := fun h => hq h.symm
  induction L with
  | nil => simp [upsert, assoc, hk]
  | cons p rest ih =>
    simp only [upsert]
    split_ifs with h1 h2
    · simp [assoc, hk]
    · have hpq : ¬ (p.1 = q) := by omega
      simp [assoc, hk, hpq]
    · by_cases hpq : p.1 = q <;> simp [assoc, hpq, ih]

theorem upsert_append_lt (L M : List (Int × Int)) (k v : Int)
    (h : ∀ p ∈ L, p.1 < k) : upsert (L ++ M) k v = L ++ upsert M k v := by
  induction L with
  | nil => rfl
  | cons p rest ih =>
    have hp := h p (List.mem_cons_self _ _)
    have h1 : ¬ k < p.1 := by omega
    have h2 : ¬ k = p.1 := by omega
    simp only [List.cons_append, upsert, if_neg h1, if_neg h2, List.append_eq]
    rw [ih fun p hp => h p (List.mem_cons_of_mem _ hp)]

theorem upsert_append_head_lt (L R : List (Int × Int)) (m : Int × Int) (k v : Int)
    (h : k < m.1) : upsert (L ++ m :: R) k v = upsert L k v ++ m :: R := by
  induction L with
  | nil => simp [upsert, h]
  | cons p rest ih =>
    simp only [List.cons_append, upsert]
    split_ifs <;> simp [ih]

theorem update_height_ne_leaf (k v : Int) (h : Nat) (l r : TreeNode) :
    TreeNode.update_height (.node k v h l r) ≠ .leaf := by
  simp [TreeNode.update_height]

theorem rotate_left_ne_leaf (k v : Int) (h : Nat) (l r : TreeNode) :
    TreeNode.rotate_left (.node k v h l r) ≠ .leaf := by
  cases r <;> simp [TreeNode.rotate_left, TreeNode.update_height]

theorem rotate_right_ne_leaf (k v : Int) (h : Nat) (l r : TreeNode) :
    TreeNode.rotate_right (.node k v h l r) ≠ .leaf := by
  cases l <;> simp [TreeNode.rotate_right, TreeNode.update_height]

theorem rebalance_ne_leaf (k v : Int) (h : Nat) (l r : TreeNode) :
    TreeNode.rebalance (.node k v h l r) ≠ .leaf := by
  simp only [TreeNode.rebalance]
  split_ifs <;>
    first
      | exact rotate_left_ne_leaf _ _ _ _ _
      | exact rotate_right_ne_leaf _ _ _ _ _
      | simp

/-- The descent of BinarySearchTree::insert acts on the in-order list as an
ordered insert-or-replace. -/
theorem bst_insertGo_inorder : ∀ (t : TreeNode), TreeNode.ordered t = true → ∀ k v,
    TreeNode.inorder (BinarySearchTree.insertGo t k v) =
      upsert (TreeNode.inorder t) k v
  | .leaf, _, k, v => rfl
  | .node key val h l r, ho, k, v => by
    obtain ⟨hL, hR, hl, hr⟩ := ordered_node_parts key val h l r ho
    simp only [BinarySearchTree.insertGo]
    split_ifs with h1 h2
    · simp only [TreeNode.inorder, bst_insertGo_inorder r hr k v]
      rw [show TreeNode.inorder l ++ (key, val) :: TreeNode.inorder r
            = (TreeNode.inorder l ++ [(key, val)]) ++ TreeNode.inorder r by simp,
        upsert_append_lt _ _ _ _ ?_, List.append_assoc]
      · simp
      · intro p hp
        rcases List.mem_append.mp hp with hp | hp
        · exact lt_trans (hL p.1 (mem_keysOf_of_mem_inorder hp)) h1
        · simp only [List.mem_singleton] at hp
          rw [hp]
          exact h1
    · simp only [TreeNode.inorder, bst_insertGo_inorder l hl k v]
      rw [upsert_append_head_lt _ _ _ _ _ h2]
    · have hkey : k = key := by omega
      subst hkey
      simp only [TreeNode.inorder]
      rw [upsert_append_lt _ _ _ _
          (fun p hp => hL p.1 (mem_keysOf_of_mem_inorder hp))]
      simp [upsert]

/-- The descent of AVLTree::insert acts on the in-order list exactly as the
binary one: the added update_height and rebalance fix-ups do not change the
traversal. -/
theorem avl_insertGo_inorder : ∀ (t : TreeNode), TreeNode.ordered t = true → ∀ k v,
    TreeNode.inorder (AVLTree.insertGo t k v) = upsert (TreeNode.inorder t) k v
  | .leaf, _, k, v => rfl
  | .node key val h l r, ho, k, v => by
    obtain ⟨hL, hR, hl, hr⟩ := ordered_node_parts key val h l r ho
    simp only [AVLTree.insertGo]
    split_ifs with h1 h2
    · simp only [TreeNode.inorder_rebalance, TreeNode.inorder_update_height,
        TreeNode.inorder, avl_insertGo_inorder r hr k v]
      rw [show TreeNode.inorder l ++ (key, val) :: TreeNode.inorder r
            = (TreeNode.inorder l ++ [(key, val)]) ++ TreeNode.inorder r by simp,
        upsert_append_lt _ _ _ _ ?_, List.append_assoc]
      · simp
      · intro p hp
        rcases List.mem_append.mp hp with hp | hp
        · exact lt_trans (hL p.1 (mem_keysOf_of_mem_inorder hp)) h1
        · simp only [List.mem_singleton] at hp
          rw [hp]
          exact h1
    · simp only [TreeNode.inorder_rebalance, TreeNode.inorder_update_height,
        TreeNode.inorder, avl_insertGo_inorder l hl k v]
      rw [upsert_append_head_lt _ _ _ _ _ h2]
    · have hkey : k = key := by omega
      subst hkey
      simp only [TreeNode.inorder]
      rw [upsert_append_lt _ _ _ _
          (fun p hp => hL p.1 (mem_keysOf_of_mem_inorder hp))]
      simp [upsert]

theorem bst_insertGo_ne_leaf : ∀ (t : TreeNode) (k v : Int),
    BinarySearchTree.insertGo t k v ≠ .leaf
  | .leaf, k, v => by simp [BinarySearchTree.insertGo, TreeNode.new]
  | .node key val h l r, k, v => by
    simp only [BinarySearchTree.insertGo]
    split_ifs <;> simp

theorem avl_insertGo_ne_leaf : ∀ (t : TreeNode) (k v : Int),
    AVLTree.insertGo t k v ≠ .leaf
  | .leaf, k, v => by simp [AVLTree.insertGo, TreeNode.new]
  | .node key val h l r, k, v => by
    simp only [AVLTree.insertGo]
    split_ifs with h1 h2
    · exact fun hcon => rebalance_ne_leaf _ _ _ _ _
        (by rw [TreeNode.update_height] at hcon; exact hcon)
    · exact fun hcon => rebalance_ne_leaf _ _ _ _ _
        (by rw [TreeNode.update_height] at hcon; exact hcon)
    · simp

theorem inorder_fix (t : TreeNode) :
    TreeNode.inorder (TreeNode.rebalance (TreeNode.update_height t)) =
      TreeNode.inorder t := by
  rw [TreeNode.inorder_rebalance, TreeNode.inorder_update_height]

/-- Unlinking the leftmost node: its key/value pair is the head of the
in-order traversal and the rest is the traversal of the remaining tree
(binary.rs walk, no fix-ups). -/
theorem bst_spliceMin_inorder : ∀ (t : TreeNode), t ≠ .leaf →
    TreeNode.inorder t =
      ((BinarySearchTree.spliceMin t).2.1, (BinarySearchTree.spliceMin t).2.2) ::
        TreeNode.inorder (BinarySearchTree.spliceMin t).1
  | .leaf, hne => absurd rfl hne
  | .node k v h0 .leaf r, _ => by
    simp [BinarySearchTree.spliceMin, TreeNode.inorder]
  | .node k v h0 (.node lk lv lh .leaf lr) r, _ => by
    simp [BinarySearchTree.spliceMin, TreeNode.inorder]
  | .node k v h0 (.node lk lv lh (.node a b c d e) lr) r, _ => by
    have ih := bst_spliceMin_inorder (.node lk lv lh (.node a b c d e) lr) (by simp)
    simp only [BinarySearchTree.spliceMin] at ih ⊢
    simp only [TreeNode.inorder] at ih ⊢
    rw [ih]
    simp

/-- The same for the avl.rs walk: the rebalance/update_height fix-ups on the
inner path do not change the traversal. -/
theorem avl_spliceMin_inorder : ∀ (t : TreeNode), t ≠ .leaf →
    TreeNode.inorder t =
      ((AVLTree.spliceMin t).2.1, (AVLTree.spliceMin t).2.2) ::
        TreeNode.inorder (AVLTree.spliceMin t).1
  | .leaf, hne => absurd rfl hne
  | .node k v h0 .leaf r, _ => by
    simp [AVLTree.spliceMin, TreeNode.inorder]
  | .node k v h0 (.node lk lv lh .leaf lr) r, _ => by
    simp [AVLTree.spliceMin, TreeNode.inorder]
  | .node k v h0 (.node lk lv lh (.node a b c d e) lr) r, _ => by
    have ih := avl_spliceMin_inorder (.node lk lv lh (.node a b c d e) lr) (by simp)
    simp only [AVLTree.spliceMin] at ih ⊢
    simp only [inorder_fix, TreeNode.inorder] at ih ⊢
    rw [ih]
    simp

theorem bst_removeGo_sublist : ∀ (t : TreeNode) (key : Int),
    RmRes.inorder_ok t (BinarySearchTree.removeGo t key)
  | .leaf, key => trivial
  | .node k v h l r, key => by
    simp only [BinarySearchTree.removeGo]
    split_ifs with h1 h2
    · have ih := bst_removeGo_sublist r key
      cases hres : BinarySearchTree.removeGo r key with
      | notFound => exact trivial
      | removed r2 rv =>
        rw [hres] at ih
        simp only [RmRes.inorder_ok, TreeNode.inorder] at ih ⊢
        exact (ih.cons₂ (k, v)).append_left _
      | leafTarget tv =>
        cases l with
        | leaf =>
          simp only [RmRes.inorder_ok, TreeNode.inorder, List.nil_append]
          exact (List.nil_sublist _).cons₂ (k, v)
        | node lk lv lh ll lr =>
          by_cases hv : lv = tv
          · simp only [hv, if_pos rfl, RmRes.inorder_ok, TreeNode.inorder,
              List.nil_append]
            exact List.sublist_append_right _ _
          · simp only [if_neg hv, RmRes.inorder_ok, TreeNode.inorder]
            exact ((List.nil_sublist _).cons₂ (k, v)).append_left _
    · have ih := bst_removeGo_sublist l key
      cases hres : BinarySearchTree.removeGo l key with
      | notFound => exact trivial
      | removed l2 rv =>
        rw [hres] at ih
        simp only [RmRes.inorder_ok, TreeNode.inorder] at ih ⊢
        exact ih.append (List.Sublist.refl _)
      | leafTarget tv =>
        simp only [RmRes.inorder_ok, TreeNode.inorder, List.nil_append]
        exact List.sublist_append_right _ _
    · cases l with
      | leaf =>
        cases r with
        | leaf => exact trivial
        | node rk rv rh rl rr =>
          simp only [RmRes.inorder_ok, TreeNode.inorder, List.nil_append]
          exact List.sublist_cons_self _ _
      | node lk lv lh ll lr =>
        cases r with
        | leaf =>
          simp only [RmRes.inorder_ok, TreeNode.inorder]
          exact List.sublist_append_left _ _
        | node rk rv rh rl rr =>
          cases rl with
          | leaf =>
            simp only [RmRes.inorder_ok, TreeNode.inorder, List.nil_append]
            exact (List.sublist_cons_self _ _).append_left _
          | node a b c d e =>
            have hmin := bst_spliceMin_inorder (.node rk rv rh (.node a b c d e) rr)
              (by simp)
            simp only [RmRes.inorder_ok, TreeNode.inorder] at hmin ⊢
            rw [hmin]
            exact (List.sublist_cons_self _ _).append_left _

theorem avl_removeGo_sublist : ∀ (t : TreeNode) (key : Int),
    RmRes.inorder_ok t (AVLTree.removeGo t key)
  | .leaf, key => trivial
  | .node k v h l r, key => by
    simp only [AVLTree.removeGo]
    split_ifs with h1 h2
    · have ih := avl_removeGo_sublist r key
      cases hres : AVLTree.removeGo r key with
      | notFound => exact trivial
      | removed r2 rv =>
        rw [hres] at ih
        simp only [RmRes.inorder_ok, inorder_fix, TreeNode.inorder] at ih ⊢
        exact (ih.cons₂ (k, v)).append_left _
      | leafTarget tv =>
        cases l with
        | leaf =>
          simp only [RmRes.inorder_ok, inorder_fix, TreeNode.inorder,
            List.nil_append]
          exact (List.nil_sublist _).cons₂ (k, v)
        | node lk lv lh ll lr =>
          by_cases hv : lv = tv
          · subst hv
            simp only [if_pos rfl, if_true, eq_self_iff_true, RmRes.inorder_ok,
              inorder_fix, TreeNode.inorder, List.nil_append]
            exact List.sublist_append_right _ _
          · simp only [if_neg hv, RmRes.inorder_ok, inorder_fix, TreeNode.inorder]
            exact ((List.nil_sublist _).cons₂ (k, v)).append_left _
    · have ih := avl_removeGo_sublist l key
      cases hres : AVLTree.removeGo l key with
      | notFound => exact trivial
      | removed l2 rv =>
        rw [hres] at ih
        simp only [RmRes.inorder_ok, inorder_fix, TreeNode.inorder] at ih ⊢
        exact ih.append (List.Sublist.refl _)
      | leafTarget tv =>
        simp only [RmRes.inorder_ok, inorder_fix, TreeNode.inorder, List.nil_append]
        exact List.sublist_append_right _ _
    · cases l with
      | leaf =>
        cases r with
        | leaf => exact trivial
        | node rk rv rh rl rr =>
          simp only [RmRes.inorder_ok, TreeNode.inorder, List.nil_append]
          exact List.sublist_cons_self _ _
      | node lk lv lh ll lr =>
        cases r with
        | leaf =>
          simp only [RmRes.inorder_ok, TreeNode.inorder]
          exact List.sublist_append_left _ _
        | node rk rv rh rl rr =>
          cases rl with
          | leaf =>
            simp only [RmRes.inorder_ok, inorder_fix, TreeNode.inorder,
              List.nil_append]
            exact (List.sublist_cons_self _ _).append_left _
          | node a b c d e =>
            have hmin := avl_spliceMin_inorder (.node rk rv rh (.node a b c d e) rr)
              (by simp)
            simp only [RmRes.inorder_ok, TreeNode.inorder] at hmin ⊢
            rw [hmin]
            exact (List.sublist_cons_self _ _).append_left _

theorem bst_remove_sublist (t : TreeNode) (key : Int) :
    List.Sublist (TreeNode.inorder (BinarySearchTree.remove t key).1)
      (TreeNode.inorder t) := by
  have ih := bst_removeGo_sublist t key
  simp only [BinarySearchTree.remove]
  cases hres : BinarySearchTree.removeGo t key with
  | notFound => exact List.Sublist.refl _
  | removed t2 rv => rw [hres] at ih; exact ih
  | leafTarget tv => exact List.nil_sublist _

theorem avl_remove_sublist (t : TreeNode) (key : Int) :
    List.Sublist (TreeNode.inorder (AVLTree.remove t key).1)
      (TreeNode.inorder t) := by
  have ih := avl_removeGo_sublist t key
  simp only [AVLTree.remove]
  cases hres : AVLTree.removeGo t key with
  | notFound => exact List.Sublist.refl _
  | removed t2 rv => rw [hres] at ih; exact ih
  | leafTarget tv => exact List.nil_sublist _

theorem ksorted_of_sublist {L M : List (Int × Int)} (h : List.Sublist L M)
    (hs : ksorted M) : ksorted L := hs.sublist h

/-- A key absent from the tree is never found by the removal descent, which
then mutates nothing (binary.rs/avl.rs return None before any edit). -/
theorem bst_removeGo_notFound : ∀ (t : TreeNode) (key : Int),
    key ∉ TreeNode.keysOf t → BinarySearchTree.removeGo t key = .notFound
  | .leaf, key, _ => rfl
  | .node k v h l r, key, hk => by
    rw [TreeNode.keysOf_node] at hk
    simp only [List.mem_append, List.mem_cons, not_or] at hk
    obtain ⟨hkl, hkeq, hkr⟩ := hk
    simp only [BinarySearchTree.removeGo]
    split_ifs with h1 h2
    · rw [bst_removeGo_notFound r key hkr]
    · rw [bst_removeGo_notFound l key hkl]
    · exact absurd (by omega : key = k) hkeq

theorem avl_removeGo_notFound : ∀ (t : TreeNode) (key : Int),
    key ∉ TreeNode.keysOf t → AVLTree.removeGo t key = .notFound
  | .leaf, key, _ => rfl
  | .node k v h l r, key, hk => by
    rw [TreeNode.keysOf_node] at hk
    simp only [List.mem_append, List.mem_cons, not_or] at hk
    obtain ⟨hkl, hkeq, hkr⟩ := hk
    simp only [AVLTree.removeGo]
    split_ifs with h1 h2
    · rw [avl_removeGo_notFound r key hkr]
    · rw [avl_removeGo_notFound l key hkl]
    · exact absurd (by omega : key = k) hkeq

theorem inorder_rebuild (fs : List Frame) (v : TreeNode) :
    TreeNode.inorder (SplayTree.rebuild fs v) =
      fs.foldr Frame.wrap (TreeNode.inorder v) := by
  induction fs with
  | nil => rfl
  | cons f rest ih =>
    cases hd : f.dir <;>
      simp [SplayTree.rebuild, Frame.wrap, hd, TreeNode.inorder, ih]

/-- The descent of searchin is faithfully recorded: rebuilding the chain
around the last visited node gives back the input tree. -/
theorem descend_rebuild : ∀ (t : TreeNode) (key : Int),
    SplayTree.rebuild (SplayTree.descend t key).1 (SplayTree.descend t key).2 = t
  | .leaf, _ => rfl
  | .node k v h l r, key => by
    simp only [SplayTree.descend]
    split_ifs with h1 h2
    · cases r with
      | leaf => rfl
      | node rk rv rh rl rr =>
        simp only [SplayTree.rebuild, descend_rebuild (.node rk rv rh rl rr) key]
    · cases l with
      | leaf => rfl
      | node lk lv lh ll lr =>
        simp only [SplayTree.rebuild, descend_rebuild (.node lk lv lh ll lr) key]
    · rfl

theorem descend_snd_ne_leaf : ∀ (t : TreeNode) (key : Int), t ≠ .leaf →
    (SplayTree.descend t key).2 ≠ .leaf
  | .leaf, _, hne => absurd rfl hne
  | .node k v h l r, key, _ => by
    simp only [SplayTree.descend]
    split_ifs with h1 h2
    · cases r with
      | leaf => simp
      | node rk rv rh rl rr =>
        simpa using descend_snd_ne_leaf (.node rk rv rh rl rr) key (by simp)
    · cases l with
      | leaf => simp
      | node lk lv lh ll lr =>
        simpa using descend_snd_ne_leaf (.node lk lv lh ll lr) key (by simp)
    · simp

theorem applyPair_inorder (vk vv : Int) (vh : Nat) (vl vr : TreeNode)
    (fp fg : Frame) :
    TreeNode.inorder (SplayTree.applyPair (.node vk vv vh vl vr) fp fg) =
      Frame.wrap fg (Frame.wrap fp (TreeNode.inorder (.node vk vv vh vl vr))) := by
  cases hp : fp.dir <;> cases hg : fg.dir <;>
    simp [SplayTree.applyPair, Frame.wrap, hp, hg, TreeNode.inorder,
      TreeNode.inorder_update_height, TreeNode.update_height]

theorem applyPair_shape (vk vv : Int) (vh : Nat) (vl vr : TreeNode)
    (fp fg : Frame) :
    ∃ h2 l2 r2, SplayTree.applyPair (.node vk vv vh vl vr) fp fg =
      .node vk vv h2 l2 r2 := by
  cases hp : fp.dir <;> cases hg : fg.dir <;>
    · simp only [SplayTree.applyPair, hp, hg, TreeNode.update_height]
      exact ⟨_, _, _, rfl⟩

/-- Folding the while-let loop of the splay: the traversal accumulates the
wraps of the consumed frames and the root keeps the splayed key/value. -/
theorem splayPairs_spec : ∀ (fs : List Frame) (vk vv : Int) (vh : Nat)
    (vl vr : TreeNode), fs.length % 2 = 0 →
    ∃ h2 l2 r2, SplayTree.splayPairs (.node vk vv vh vl vr) fs = .node vk vv h2 l2 r2 ∧
      TreeNode.inorder (.node vk vv h2 l2 r2) =
        fs.foldl (fun inner f => Frame.wrap f inner)
          (TreeNode.inorder (.node vk vv vh vl vr))
  | [], vk, vv, vh, vl, vr, _ => ⟨vh, vl, vr, rfl, rfl⟩
  | [f], _, _, _, _, _, hlen => by simp at hlen
  | fp :: fg :: rest, vk, vv, vh, vl, vr, hlen => by
    obtain ⟨h2, l2, r2, hshape⟩ := applyPair_shape vk vv vh vl vr fp fg
    have hrest : rest.length % 2 = 0 := by
      simp only [List.length_cons] at hlen
      omega
    obtain ⟨h3, l3, r3, hshape3, hin3⟩ := splayPairs_spec rest vk vv h2 l2 r2 hrest
    refine ⟨h3, l3, r3, ?_, ?_⟩
    · simp only [SplayTree.splayPairs, hshape, hshape3]
    · rw [hin3]
      have := applyPair_inorder vk vv vh vl vr fp fg
      rw [hshape] at this
      simp only [List.foldl_cons]
      rw [this]

theorem zigStep_spec (vk vv : Int) (vh : Nat) (vl vr : TreeNode) (f : Frame) :
    ∃ h2 l2 r2, SplayTree.zigStep (.node vk vv vh vl vr) f = .node vk vv h2 l2 r2 ∧
      TreeNode.inorder (.node vk vv h2 l2 r2) =
        Frame.wrap f (TreeNode.inorder (.node vk vv vh vl vr)) := by
  cases hd : f.dir <;>
  · simp only [SplayTree.zigStep, hd, TreeNode.rotate_right, TreeNode.rotate_left,
      TreeNode.update_height]
    refine ⟨_, _, _, rfl, ?_⟩
    simp [Frame.wrap, hd, TreeNode.inorder]

/-- TreeNode::splay keeps the splayed node's key/value at the root of the
result and rearranges exactly the recorded chain: the traversal equals that
of the rebuilt original. -/
theorem splay_spec (vk vv : Int) (vh : Nat) (vl vr : TreeNode)
    (prev : List Frame) :
    ∃ h2 l2 r2, SplayTree.splay (.node vk vv vh vl vr) prev = .node vk vv h2 l2 r2 ∧
      TreeNode.inorder (.node vk vv h2 l2 r2) =
        TreeNode.inorder (SplayTree.rebuild prev (.node vk vv vh vl vr)) := by
  cases prev with
  | nil =>
    exact ⟨vh, vl, vr, by simp [SplayTree.splay, SplayTree.splayPairs], rfl⟩
  | cons f rest =>
    by_cases hodd : (f :: rest).length % 2 = 1
    · have hrest : rest.reverse.length % 2 = 0 := by
        simp only [List.length_cons] at hodd
        simp only [List.length_reverse]
        omega
      obtain ⟨h2, l2, r2, hs1, hi1⟩ :=
        splayPairs_spec rest.reverse vk vv vh vl vr hrest
      obtain ⟨h3, l3, r3, hs2, hi2⟩ := zigStep_spec vk vv h2 l2 r2 f
      refine ⟨h3, l3, r3, ?_, ?_⟩
      · simp only [SplayTree.splay, if_pos hodd, hs1, hs2]
      · rw [hi2, hi1, inorder_rebuild, List.foldr_cons]
        congr 1
        rw [List.foldl_reverse]
    · have heven : (f :: rest).reverse.length % 2 = 0 := by
        simp only [List.length_cons] at hodd
        simp only [List.length_reverse, List.length_cons]
        omega
      obtain ⟨h2, l2, r2, hs1, hi1⟩ :=
        splayPairs_spec (f :: rest).reverse vk vv vh vl vr heven
      refine ⟨h2, l2, r2, ?_, ?_⟩
      · simp only [SplayTree.splay, if_neg hodd, hs1]
      · rw [hi1, inorder_rebuild, List.foldl_reverse]

/-- SplayTree::searchin on a non-empty tree: the result is rooted at the
last visited node's key/value and has the same traversal as the input. -/
theorem searchin_spec (t : TreeNode) (key : Int) (hne : t ≠ .leaf) :
    ∃ k2 v2 h2 l2 r2, SplayTree.searchin t key = .node k2 v2 h2 l2 r2 ∧
      TreeNode.root_pair (SplayTree.descend t key).2 = some (k2, v2) ∧
      TreeNode.inorder (SplayTree.searchin t key) = TreeNode.inorder t := by
  cases t with
  | leaf => exact absurd rfl hne
  | node k v h l r =>
    cases hd : (SplayTree.descend (.node k v h l r) key).2 with
    | leaf => exact absurd hd (descend_snd_ne_leaf _ key (by simp))
    | node kd vd hd2 ld rd =>
      obtain ⟨h2, l2, r2, hs, hi⟩ :=
        splay_spec kd vd hd2 ld rd (SplayTree.descend (.node k v h l r) key).1
      have hre := descend_rebuild (.node k v h l r) key
      rw [hd] at hre
      refine ⟨kd, vd, h2, l2, r2, ?_, by simp [hd, TreeNode.root_pair], ?_⟩
      · show SplayTree.splay (SplayTree.descend (.node k v h l r) key).2
          (SplayTree.descend (.node k v h l r) key).1 = _
        rw [hd]
        exact hs
      · show TreeNode.inorder (SplayTree.splay
            (SplayTree.descend (.node k v h l r) key).2
            (SplayTree.descend (.node k v h l r) key).1) = _
        rw [hd, hs, hi, hre]

/-- In an ordered tree that contains the key, the descent of searchin stops
exactly at the node carrying that key. -/
theorem descend_found : ∀ (t : TreeNode) (key : Int), TreeNode.ordered t = true →
    key ∈ TreeNode.keysOf t →
    ∃ w, TreeNode.root_pair (SplayTree.descend t key).2 = some (key, w) ∧
      (key, w) ∈ TreeNode.inorder t
  | .leaf, key, _, hk => by simp [TreeNode.keysOf, TreeNode.inorder] at hk
  | .node k v h l r, key, ho, hk => by
    obtain ⟨hL, hR, hl, hr⟩ := ordered_node_parts k v h l r ho
    rw [TreeNode.keysOf_node] at hk
    simp only [SplayTree.descend]
    split_ifs with h1 h2
    · have hkr : key ∈ TreeNode.keysOf r := by
        rcases List.mem_append.mp hk with hh | hh
        · exact absurd (hL key hh) (by omega)
        · rcases List.mem_cons.mp hh with rfl | hh
          · omega
          · exact hh
      cases r with
      | leaf => simp [TreeNode.keysOf, TreeNode.inorder] at hkr
      | node rk rv rh rl rr =>
        obtain ⟨w, hw, hmem⟩ := descend_found (.node rk rv rh rl rr) key hr hkr
        exact ⟨w, by simpa using hw,
          by
            simp only [TreeNode.inorder]
            exact List.mem_append_right _ (List.mem_cons_of_mem _ hmem)⟩
    · have hkl : key ∈ TreeNode.keysOf l := by
        rcases List.mem_append.mp hk with hh | hh
        · exact hh
        · rcases List.mem_cons.mp hh with rfl | hh
          · omega
          · exact absurd (hR key hh) (by omega)
      cases l with
      | leaf => simp [TreeNode.keysOf, TreeNode.inorder] at hkl
      | node lk lv lh ll lr =>
        obtain ⟨w, hw, hmem⟩ := descend_found (.node lk lv lh ll lr) key hl hkl
        exact ⟨w, by simpa using hw,
          by
            simp only [TreeNode.inorder]
            exact List.mem_append_left _ hmem⟩
    · have hkeq : key = k := by omega
      subst hkeq
      exact ⟨v, rfl, List.mem_append_right _ (List.mem_cons_self _ _)⟩

/-- The key at which the descent stops is a key of the tree. -/
theorem descend_key_mem : ∀ (t : TreeNode) (key κ w : Int),
    TreeNode.root_pair (SplayTree.descend t key).2 = some (κ, w) →
    κ ∈ TreeNode.keysOf t
  | .leaf, key, κ, w, hp => by simp [SplayTree.descend, TreeNode.root_pair] at hp
  | .node k v h l r, key, κ, w, hp => by
    rw [TreeNode.keysOf_node]
    simp only [SplayTree.descend] at hp
    split_ifs at hp with h1 h2
    · cases r with
      | leaf =>
        simp only [TreeNode.root_pair, Option.some_inj, Prod.mk.injEq] at hp
        exact List.mem_append_right _ (List.mem_cons.mpr (Or.inl hp.1.symm))
      | node rk rv rh rl rr =>
        have := descend_key_mem (.node rk rv rh rl rr) key κ w (by simpa using hp)
        exact List.mem_append_right _ (List.mem_cons_of_mem _ this)
    · cases l with
      | leaf =>
        simp only [TreeNode.root_pair, Option.some_inj, Prod.mk.injEq] at hp
        exact List.mem_append_right _ (List.mem_cons.mpr (Or.inl hp.1.symm))
      | node lk lv lh ll lr =>
        have := descend_key_mem (.node lk lv lh ll lr) key κ w (by simpa using hp)
        exact List.mem_append_left _ this
    · simp only [TreeNode.root_pair, Option.some_inj, Prod.mk.injEq] at hp
      exact List.mem_append_right _ (List.mem_cons.mpr (Or.inl hp.1.symm))

/-- The descent stops at a nearest key: no key of the tree lies strictly
between the searched key and the stopping key. -/
theorem descend_nearest : ∀ (t : TreeNode) (key : Int), TreeNode.ordered t = true →
    ∀ κ w, TreeNode.root_pair (SplayTree.descend t key).2 = some (κ, w) →
    ∀ x ∈ TreeNode.keysOf t, (κ < x → key < x) ∧ (x < κ → x < key)
  | .leaf, key, _, κ, w, hp => by simp [SplayTree.descend, TreeNode.root_pair] at hp
  | .node k v h l r, key, ho, κ, w, hp => by
    obtain ⟨hL, hR, hl, hr⟩ := ordered_node_parts k v h l r ho
    simp only [SplayTree.descend] at hp
    split_ifs at hp with h1 h2
    · cases r with
      | leaf =>
        simp only [TreeNode.root_pair, Option.some_inj, Prod.mk.injEq] at hp
        obtain ⟨hpk, -⟩ := hp
        subst hpk
        intro x hx
        rw [TreeNode.keysOf_node] at hx
        rcases List.mem_append.mp hx with hh | hh
        · have := hL x hh
          omega
        · rcases List.mem_cons.mp hh with rfl | hh
          · omega
          · simp [TreeNode.keysOf, TreeNode.inorder] at hh
      | node rk rv rh rl rr =>
        have ih := descend_nearest (.node rk rv rh rl rr) key hr κ w (by simpa using hp)
        have hκr : κ ∈ TreeNode.keysOf (.node rk rv rh rl rr) :=
          descend_key_mem (.node rk rv rh rl rr) key κ w (by simpa using hp)
        have hκgt : k < κ := hR κ hκr
        intro x hx
        rw [TreeNode.keysOf_node] at hx
        rcases List.mem_append.mp hx with hh | hh
        · have := hL x hh
          omega
        · rcases List.mem_cons.mp hh with rfl | hh
          · omega
          · exact ih x hh
    · cases l with
      | leaf =>
        simp only [TreeNode.root_pair, Option.some_inj, Prod.mk.injEq] at hp
        obtain ⟨hpk, -⟩ := hp
        subst hpk
        intro x hx
        rw [TreeNode.keysOf_node] at hx
        rcases List.mem_append.mp hx with hh | hh
        · simp [TreeNode.keysOf, TreeNode.inorder] at hh
        · rcases List.mem_cons.mp hh with rfl | hh
          · omega
          · have := hR x hh
            omega
      | node lk lv lh ll lr =>
        have ih := descend_nearest (.node lk lv lh ll lr) key hl κ w (by simpa using hp)
        have hκl : κ ∈ TreeNode.keysOf (.node lk lv lh ll lr) :=
          descend_key_mem (.node lk lv lh ll lr) key κ w (by simpa using hp)
        have hκlt : κ < k := hL κ hκl
        intro x hx
        rw [TreeNode.keysOf_node] at hx
        rcases List.mem_append.mp hx with hh | hh
        · exact ih x hh
        · rcases List.mem_cons.mp hh with rfl | hh
          · omega
          · have := hR x hh
            omega
    · simp only [TreeNode.root_pair, Option.some_inj, Prod.mk.injEq] at hp
      obtain ⟨hpk, -⟩ := hp
      subst hpk
      have hkey : key = k := by omega
      subst hkey
      intro x hx
      exact ⟨fun hlt => hlt, fun hlt => hlt⟩

theorem assoc_mid_ne (A B : List (Int × Int)) (κ w v q : Int) (hq : q ≠ κ) :
    assoc (A ++ (κ, v) :: B) q = assoc (A ++ (κ, w) :: B) q := by
  have hκ : ¬ (κ = q) := fun hcon => hq hcon.symm
  induction A with
  | nil => simp [assoc, hκ]
  | cons p rest ih => by_cases hp : p.1 = q <;> simp [assoc, hp, ih]

theorem assoc_mid_skip (A B : List (Int × Int)) (k v q : Int) (hq : q ≠ k) :
    assoc (A ++ (k, v) :: B) q = assoc (A ++ B) q := by
  have hk : ¬ (k = q) := fun hcon => hq hcon.symm
  induction A with
  | nil => simp [assoc, hk]
  | cons p rest ih => by_cases hp : p.1 = q <;> simp [assoc, hp, ih]

theorem ordered_update_height (t : TreeNode) :
    TreeNode.ordered (TreeNode.update_height t) = TreeNode.ordered t := by
  cases t <;> simp [TreeNode.update_height, TreeNode.ordered]

/-- BinarySearchTree::insert on a non-empty ordered tree: the order
invariant is kept, the tree stays non-empty, and lookups behave as a map
update. -/
theorem bst_insert_spec (t : TreeNode) (k v : Int)
    (ho : TreeNode.ordered t = true) (hne : t ≠ .leaf) :
    TreeNode.ordered (BinarySearchTree.insert t k v) = true ∧
    BinarySearchTree.insert t k v ≠ .leaf ∧
    ∀ q, assoc (TreeNode.inorder (BinarySearchTree.insert t k v)) q =
      if q = k then some v else assoc (TreeNode.inorder t) q := by
  cases t with
  | leaf => exact absurd rfl hne
  | node k0 v0 h0 l0 r0 =>
    have hins : BinarySearchTree.insert (.node k0 v0 h0 l0 r0) k v =
        BinarySearchTree.insertGo (.node k0 v0 h0 l0 r0) k v := rfl
    rw [hins]
    have hio := bst_insertGo_inorder (.node k0 v0 h0 l0 r0) ho k v
    refine ⟨?_, bst_insertGo_ne_leaf _ _ _, ?_⟩
    · rw [ordered_iff_ksorted, hio]
      exact upsert_ksorted _ _ _ ((ordered_iff_ksorted _).mp ho)
    · intro q
      rw [hio]
      by_cases hq : q = k
      · subst hq
        simp [assoc_upsert_self]
      · simp [hq, assoc_upsert_of_ne _ _ _ _ hq]

/-- AVLTree::insert on a non-empty ordered tree behaves identically at the
map level. -/
theorem avl_insert_spec (t : TreeNode) (k v : Int)
    (ho : TreeNode.ordered t = true) (hne : t ≠ .leaf) :
    TreeNode.ordered (AVLTree.insert t k v) = true ∧
    AVLTree.insert t k v ≠ .leaf ∧
    ∀ q, assoc (TreeNode.inorder (AVLTree.insert t k v)) q =
      if q = k then some v else assoc (TreeNode.inorder t) q := by
  cases t with
  | leaf => exact absurd rfl hne
  | node k0 v0 h0 l0 r0 =>
    have hins : AVLTree.insert (.node k0 v0 h0 l0 r0) k v =
        AVLTree.insertGo (.node k0 v0 h0 l0 r0) k v := rfl
    rw [hins]
    have hio := avl_insertGo_inorder (.node k0 v0 h0 l0 r0) ho k v
    refine ⟨?_, avl_insertGo_ne_leaf _ _ _, ?_⟩
    · rw [ordered_iff_ksorted, hio]
      exact upsert_ksorted _ _ _ ((ordered_iff_ksorted _).mp ho)
    · intro q
      rw [hio]
      by_cases hq : q = k
      · subst hq
        simp [assoc_upsert_self]
      · simp [hq, assoc_upsert_of_ne _ _ _ _ hq]

theorem keysOf_update_height (t : TreeNode) :
    TreeNode.keysOf (TreeNode.update_height t) = TreeNode.keysOf t := by
  simp [TreeNode.keysOf, TreeNode.inorder_update_height]

theorem inorder_of_searchin_eq (t t2 : TreeNode) (key : Int) (hne : t ≠ .leaf)
    (hs : SplayTree.searchin t key = t2) :
    TreeNode.inorder t2 = TreeNode.inorder t := by
  obtain ⟨k2, v2, h2, l2, r2, hs2, -, hio⟩ := searchin_spec t key hne
  rw [← hs, hio]

/-- SplayTree::insert on a non-empty ordered tree: the order invariant is
kept, the tree stays non-empty, the inserted key sits at the root, and
lookups behave as a map update. -/
theorem splay_insert_spec (t : TreeNode) (k v : Int)
    (ho : TreeNode.ordered t = true) (hne : t ≠ .leaf) :
    TreeNode.ordered (SplayTree.insert t k v) = true ∧
    SplayTree.insert t k v ≠ .leaf ∧
    TreeNode.root_key (SplayTree.insert t k v) = some k ∧
    ∀ q, assoc (TreeNode.inorder (SplayTree.insert t k v)) q =
      if q = k then some v else assoc (TreeNode.inorder t) q := by
  obtain ⟨κ, w, h2, L, R, hs, hroot, hio⟩ := searchin_spec t k hne
  rw [hs] at hio
  have hot2 : TreeNode.ordered (.node κ w h2 L R) = true := by
    rw [ordered_iff_ksorted, hio]
    exact (ordered_iff_ksorted t).mp ho
  obtain ⟨hL, hR, hlo, hro⟩ := ordered_node_parts κ w h2 L R hot2
  have hnear := descend_nearest t k ho κ w hroot
  have hkeys : ∀ x, x ∈ TreeNode.keysOf (.node κ w h2 L R) →
      x ∈ TreeNode.keysOf t := by
    intro x hx
    simpa [TreeNode.keysOf, hio] using hx
  have hunf : SplayTree.insert t k v =
      (if κ = k then (.node κ v h2 L R : TreeNode)
       else if κ < k then
         TreeNode.update_height (.node k v h2
           (TreeNode.update_height (.node κ w 1 L .leaf)) R)
       else
         TreeNode.update_height (.node k v h2 L
           (TreeNode.update_height (.node κ w 1 .leaf R)))) := by
    simp only [SplayTree.insert, hs]
  by_cases hκ : κ = k
  · subst hκ
    rw [hunf, if_pos rfl]
    have hordv : TreeNode.ordered (.node κ v h2 L R) = true := by
      simp only [TreeNode.ordered] at hot2 ⊢
      exact hot2
    refine ⟨hordv, by simp, rfl, ?_⟩
    intro q
    by_cases hq : q = κ
    · subst hq
      rw [if_pos rfl, TreeNode.inorder,
        assoc_append_left_skip _ _ _
          (fun p hp => ne_of_lt (hL p.1 (mem_keysOf_of_mem_inorder hp)))]
      simp [assoc]
    · rw [if_neg hq, TreeNode.inorder, assoc_mid_ne _ _ _ w _ _ hq, ← TreeNode.inorder,
        hio]
  · have hknotin : k ∉ TreeNode.keysOf t := by
      intro hmem
      obtain ⟨w2, hw2, -⟩ := descend_found t k ho hmem
      rw [hroot] at hw2
      simp only [Option.some_inj, Prod.mk.injEq] at hw2
      exact hκ hw2.1
    by_cases hκlt : κ < k
    · -- the old root becomes the left child of the new root
      have hRgt : ∀ x ∈ TreeNode.keysOf R, k < x := by
        intro x hx
        have hxt : x ∈ TreeNode.keysOf t := by
          apply hkeys
          rw [TreeNode.keysOf_node]
          exact List.mem_append_right _ (List.mem_cons_of_mem _ hx)
        exact (hnear x hxt).1 (hR x hx)
      rw [hunf, if_neg hκ, if_pos hκlt]
      have hin2 : TreeNode.inorder (TreeNode.update_height (.node k v h2
          (TreeNode.update_height (.node κ w 1 L .leaf)) R)) =
          (TreeNode.inorder L ++ [(κ, w)]) ++ (k, v) :: TreeNode.inorder R := by
        simp [TreeNode.inorder_update_height, TreeNode.inorder]
      refine ⟨?_, by simp [TreeNode.update_height], ?_, ?_⟩
      · rw [ordered_update_height]
        simp only [TreeNode.ordered, Bool.and_eq_true, List.all_eq_true,
          decide_eq_true_eq, keysOf_update_height, ordered_update_height]
        refine ⟨⟨⟨?_, ?_⟩, ?_⟩, hro⟩
        · intro x hx
          rw [TreeNode.keysOf_node, TreeNode.keysOf_leaf] at hx
          rcases List.mem_append.mp hx with hx | hx
          · exact lt_trans (hL x hx) hκlt
          · rcases List.mem_cons.mp hx with rfl | hx
            · exact hκlt
            · cases hx
        · exact hRgt
        · simp only [TreeNode.ordered, Bool.and_eq_true, List.all_eq_true,
            decide_eq_true_eq, TreeNode.keysOf_leaf, List.not_mem_nil,
            false_implies, implies_true, and_true, true_and]
          exact ⟨hL, hlo⟩
      · simp [TreeNode.root_key, TreeNode.root_pair, TreeNode.update_height]
      · intro q
        rw [hin2]
        by_cases hq : q = k
        · subst hq
          rw [if_pos rfl, assoc_append_left_skip]
          · simp [assoc]
          · intro p hp
            rcases List.mem_append.mp hp with hp | hp
            · exact ne_of_lt (lt_trans (hL p.1 (mem_keysOf_of_mem_inorder hp)) hκlt)
            · simp only [List.mem_singleton] at hp
              rw [hp]
              exact ne_of_lt hκlt
        · rw [if_neg hq, assoc_mid_skip _ _ _ _ _ hq, ← hio, TreeNode.inorder]
          simp
    · -- the old root becomes the right child of the new root
      have hκgt : k < κ := by omega
      have hLlt : ∀ x ∈ TreeNode.keysOf L, x < k := by
        intro x hx
        have hxt : x ∈ TreeNode.keysOf t := by
          apply hkeys
          rw [TreeNode.keysOf_node]
          exact List.mem_append_left _ hx
        exact (hnear x hxt).2 (hL x hx)
      rw [hunf, if_neg hκ, if_neg hκlt]
      have hin2 : TreeNode.inorder (TreeNode.update_height (.node k v h2 L
          (TreeNode.update_height (.node κ w 1 .leaf R)))) =
          TreeNode.inorder L ++ (k, v) :: ((κ, w) :: TreeNode.inorder R) := by
        simp [TreeNode.inorder_update_height, TreeNode.inorder]
      refine ⟨?_, by simp [TreeNode.update_height], ?_, ?_⟩
      · rw [ordered_update_height]
        simp only [TreeNode.ordered, Bool.and_eq_true, List.all_eq_true,
          decide_eq_true_eq, keysOf_update_height, ordered_update_height]
        refine ⟨⟨⟨hLlt, ?_⟩, hlo⟩, ?_⟩
        · intro x hx
          rw [TreeNode.keysOf_node, TreeNode.keysOf_leaf, List.nil_append] at hx
          rcases List.mem_cons.mp hx with rfl | hx
          · exact hκgt
          · exact lt_trans hκgt (hR x hx)
        · simp only [TreeNode.ordered, Bool.and_eq_true, List.all_eq_true,
            decide_eq_true_eq, TreeNode.keysOf_leaf, List.not_mem_nil,
            false_implies, implies_true, and_true, true_and]
          exact ⟨hR, hro⟩
      · simp [TreeNode.root_key, TreeNode.root_pair, TreeNode.update_height]
      · intro q
        rw [hin2]
        by_cases hq : q = k
        · subst hq
          rw [if_pos rfl, assoc_append_left_skip _ _ _
            (fun p hp => ne_of_lt (hLlt p.1 (mem_keysOf_of_mem_inorder hp)))]
          simp [assoc]
        · rw [if_neg hq, assoc_mid_skip _ _ _ _ _ hq, ← hio, TreeNode.inorder]

/-- The key/value pair at which the descent stops is a pair of the tree. -/
theorem descend_pair_mem : ∀ (t : TreeNode) (key κ w : Int),
    TreeNode.root_pair (SplayTree.descend t key).2 = some (κ, w) →
    (κ, w) ∈ TreeNode.inorder t
  | .leaf, key, κ, w, hp => by simp [SplayTree.descend, TreeNode.root_pair] at hp
  | .node k v h l r, key, κ, w, hp => by
    simp only [SplayTree.descend] at hp
    simp only [TreeNode.inorder]
    split_ifs at hp with h1 h2
    · cases r with
      | leaf =>
        simp only [TreeNode.root_pair, Option.some_inj, Prod.mk.injEq] at hp
        rw [← hp.1, ← hp.2]
        exact List.mem_append_right _ (List.mem_cons_self _ _)
      | node rk rv rh rl rr =>
        have := descend_pair_mem (.node rk rv rh rl rr) key κ w (by simpa using hp)
        exact List.mem_append_right _ (List.mem_cons_of_mem _ this)
    · cases l with
      | leaf =>
        simp only [TreeNode.root_pair, Option.some_inj, Prod.mk.injEq] at hp
        rw [← hp.1, ← hp.2]
        exact List.mem_append_right _ (List.mem_cons_self _ _)
      | node lk lv lh ll lr =>
        have := descend_pair_mem (.node lk lv lh ll lr) key κ w (by simpa using hp)
        exact List.mem_append_left _ this
    · simp only [TreeNode.root_pair, Option.some_inj, Prod.mk.injEq] at hp
      rw [← hp.1, ← hp.2]
      exact List.mem_append_right _ (List.mem_cons_self _ _)

/-- SplayTree::search on an ordered tree: the shape changes but the
traversal does not, and the reported value is the association-list
lookup. -/
theorem splay_search_spec (t : TreeNode) (q : Int)
    (ho : TreeNode.ordered t = true) :
    TreeNode.ordered (SplayTree.search t q).1 = true ∧
    TreeNode.inorder (SplayTree.search t q).1 = TreeNode.inorder t ∧
    (SplayTree.search t q).2 = assoc (TreeNode.inorder t) q := by
  cases t with
  | leaf => exact ⟨rfl, rfl, rfl⟩
  | node k0 v0 h0 l0 r0 =>
    obtain ⟨κ, w, h2, L, R, hs, hroot, hio⟩ :=
      searchin_spec (.node k0 v0 h0 l0 r0) q (by simp)
    rw [hs] at hio
    have hres : SplayTree.search (.node k0 v0 h0 l0 r0) q =
        (if κ = q then ((.node κ w h2 L R : TreeNode), some w)
         else ((.node κ w h2 L R : TreeNode), none)) := by
      simp only [SplayTree.search, hs]
    have hord2 : TreeNode.ordered (.node κ w h2 L R) = true := by
      rw [ordered_iff_ksorted, hio]
      exact (ordered_iff_ksorted _).mp ho
    by_cases hκ : κ = q
    · rw [hres, if_pos hκ]
      refine ⟨hord2, hio, ?_⟩
      have hmem := descend_pair_mem (.node k0 v0 h0 l0 r0) q κ w hroot
      rw [hκ] at hmem
      exact (assoc_of_mem _ _ _ ((ordered_iff_ksorted _).mp ho) hmem).symm
    · rw [hres, if_neg hκ]
      refine ⟨hord2, hio, ?_⟩
      have hnot : q ∉ TreeNode.keysOf (.node k0 v0 h0 l0 r0) := by
        intro hmem
        obtain ⟨w2, hw2, -⟩ := descend_found _ q ho hmem
        rw [hroot] at hw2
        simp only [Option.some_inj, Prod.mk.injEq] at hw2
        exact hκ hw2.1
      rw [assoc_eq_none]
      intro p hp hcon
      exact hnot (hcon ▸ mem_keysOf_of_mem_inorder hp)

/-- SplayTree::remove never adds pairs: the resulting traversal is a sublist
of the input's (regardless of any invariant). -/
theorem splay_remove_sublist (t : TreeNode) (key : Int) :
    List.Sublist (TreeNode.inorder (SplayTree.remove t key).1)
      (TreeNode.inorder t) := by
  cases t with
  | leaf => exact List.Sublist.refl _
  | node k0 v0 h0 l0 r0 =>
    obtain ⟨κ, w, h2, L, R, hs, hroot, hio⟩ :=
      searchin_spec (.node k0 v0 h0 l0 r0) key (by simp)
    rw [hs] at hio
    rw [← hio]
    simp only [SplayTree.remove, hs]
    by_cases hκ : κ = key
    · rw [if_pos hκ]
      cases R with
      | leaf =>
        simp only [TreeNode.inorder]
        exact List.sublist_append_left _ _
      | node rk rv rh rl rr =>
        cases rl with
        | leaf =>
          simp only [TreeNode.inorder_update_height, TreeNode.inorder,
            List.nil_append]
          exact (List.sublist_cons_self _ _).append_left _
        | node a b c d e =>
          have hmin := bst_spliceMin_inorder (.node rk rv rh (.node a b c d e) rr)
            (by simp)
          simp only [TreeNode.inorder_update_height, TreeNode.inorder] at hmin ⊢
          rw [hmin]
          exact (List.sublist_cons_self _ _).append_left _
    · rw [if_neg hκ]

/-- SplayTree::remove of an absent key: none is returned and the traversal
is exactly preserved (the splay rearranged the shape only). -/
theorem splay_remove_absent (t : TreeNode) (key : Int)
    (hk : key ∉ TreeNode.keysOf t) :
    (SplayTree.remove t key).2 = none ∧
    TreeNode.inorder (SplayTree.remove t key).1 = TreeNode.inorder t := by
  cases t with
  | leaf => exact ⟨rfl, rfl⟩
  | node k0 v0 h0 l0 r0 =>
    obtain ⟨κ, w, h2, L, R, hs, hroot, hio⟩ :=
      searchin_spec (.node k0 v0 h0 l0 r0) key (by simp)
    rw [hs] at hio
    have hκ : κ ≠ key := by
      intro hcon
      subst hcon
      exact hk (descend_key_mem _ κ κ w hroot)
    simp only [SplayTree.remove, hs, if_neg hκ]
    exact ⟨trivial, hio⟩

theorem ordered_new (k v : Int) : TreeNode.ordered (TreeNode.new k v) = true := by
  simp [TreeNode.new, TreeNode.ordered, TreeNode.keysOf, TreeNode.inorder]

theorem bst_applyOp_ordered (t : TreeNode) (op : Op)
    (ho : TreeNode.ordered t = true) :
    TreeNode.ordered (BinarySearchTree.applyOp t op) = true := by
  cases op with
  | search k => exact ho
  | insert k v =>
    cases t with
    | leaf => exact ho
    | node k0 v0 h0 l0 r0 => exact (bst_insert_spec _ k v ho (by simp)).1
  | remove k =>
    rw [ordered_iff_ksorted] at ho ⊢
    exact ksorted_of_sublist (bst_remove_sublist t k) ho

theorem avl_applyOp_ordered (t : TreeNode) (op : Op)
    (ho : TreeNode.ordered t = true) :
    TreeNode.ordered (AVLTree.applyOp t op) = true := by
  cases op with
  | search k => exact ho
  | insert k v =>
    cases t with
    | leaf => exact ho
    | node k0 v0 h0 l0 r0 => exact (avl_insert_spec _ k v ho (by simp)).1
  | remove k =>
    rw [ordered_iff_ksorted] at ho ⊢
    exact ksorted_of_sublist (avl_remove_sublist t k) ho

theorem splay_applyOp_ordered (t : TreeNode) (op : Op)
    (ho : TreeNode.ordered t = true) :
    TreeNode.ordered (SplayTree.applyOp t op) = true := by
  cases op with
  | search k => exact (splay_search_spec t k ho).1
  | insert k v =>
    cases t with
    | leaf => exact ho
    | node k0 v0 h0 l0 r0 => exact (splay_insert_spec _ k v ho (by simp)).1
  | remove k =>
    rw [ordered_iff_ksorted] at ho ⊢
    exact ksorted_of_sublist (splay_remove_sublist t k) ho

theorem bst_foldl_ordered (ops : List Op) : ∀ (t : TreeNode),
    TreeNode.ordered t = true →
    TreeNode.ordered (ops.foldl BinarySearchTree.applyOp t) = true := by
  induction ops with
  | nil => exact fun t h => h
  | cons op rest ih => exact fun t ht => ih _ (bst_applyOp_ordered t op ht)

theorem avl_foldl_ordered (ops : List Op) : ∀ (t : TreeNode),
    TreeNode.ordered t = true →
    TreeNode.ordered (ops.foldl AVLTree.applyOp t) = true := by
  induction ops with
  | nil => exact fun t h => h
  | cons op rest ih => exact fun t ht => ih _ (avl_applyOp_ordered t op ht)

theorem splay_foldl_ordered (ops : List Op) : ∀ (t : TreeNode),
    TreeNode.ordered t = true →
    TreeNode.ordered (ops.foldl SplayTree.applyOp t) = true := by
  induction ops with
  | nil => exact fun t h => h
  | cons op rest ih => exact fun t ht => ih _ (splay_applyOp_ordered t op ht)

/-- Claim C5 — confirmed.  For every engine and every sequence of
search/insert/remove operations issued from a newly constructed tree, the
tree reached satisfies the order invariant (every key in a node's left
subtree strictly below the node's key, every key in its right subtree
strictly above).  Since every prefix of a sequence is itself a sequence, the
invariant holds after each operation. -/
theorem c5_order_invariant_every_engine (k0 v0 : Int) (ops : List Op) :
    TreeNode.ordered (BinarySearchTree.run k0 v0 ops) = true ∧
    TreeNode.ordered (AVLTree.run k0 v0 ops) = true ∧
    TreeNode.ordered (SplayTree.run k0 v0 ops) = true :=
  ⟨bst_foldl_ordered ops _ (ordered_new k0 v0),
   avl_foldl_ordered ops _ (ordered_new k0 v0),
   splay_foldl_ordered ops _ (ordered_new k0 v0)⟩

/-- Claim C7 — confirmed.  Removing an absent key returns the defined absent
result (None, no failure path exists in the model), leaves the binary and
AVL trees entirely unchanged, and leaves the splay tree's key list (and thus
key set) unchanged with the order invariant intact — only the splay pass
rearranges the shape. -/
theorem c7_absent_remove (t : TreeNode) (key : Int)
    (hk : key ∉ TreeNode.keysOf t) :
    BinarySearchTree.remove t key = (t, none) ∧
    AVLTree.remove t key = (t, none) ∧
    (SplayTree.remove t key).2 = none ∧
    TreeNode.keysOf (SplayTree.remove t key).1 = TreeNode.keysOf t ∧
    (TreeNode.ordered t = true →
      TreeNode.ordered (SplayTree.remove t key).1 = true) := by
  refine ⟨?_, ?_, (splay_remove_absent t key hk).1, ?_, ?_⟩
  · simp [BinarySearchTree.remove, bst_removeGo_notFound t key hk]
  · simp [AVLTree.remove, avl_removeGo_notFound t key hk]
  · simp [TreeNode.keysOf, (splay_remove_absent t key hk).2]
  · intro ho
    rw [ordered_iff_ksorted, (splay_remove_absent t key hk).2]
    exact (ordered_iff_ksorted t).mp ho

/-- Witness for C7 at a concrete input: key 3 is absent from the singleton
tree with key 5. -/
theorem c7_absent_remove_witness :
    ((3 : Int) ∉ TreeNode.keysOf (.node 5 7 1 .leaf .leaf)) ∧
    (BinarySearchTree.remove (.node 5 7 1 .leaf .leaf) 3 =
        ((.node 5 7 1 .leaf .leaf : TreeNode), none) ∧
      AVLTree.remove (.node 5 7 1 .leaf .leaf) 3 =
        ((.node 5 7 1 .leaf .leaf : TreeNode), none) ∧
      (SplayTree.remove (.node 5 7 1 .leaf .leaf) 3).2 = none ∧
      TreeNode.keysOf (SplayTree.remove (.node 5 7 1 .leaf .leaf) 3).1 =
        TreeNode.keysOf (.node 5 7 1 .leaf .leaf) ∧
      (TreeNode.ordered (.node 5 7 1 .leaf .leaf) = true →
        TreeNode.ordered (SplayTree.remove (.node 5 7 1 .leaf .leaf) 3).1 = true)) :=
  ⟨by decide, c7_absent_remove (.node 5 7 1 .leaf .leaf) 3 (by decide)⟩

/-- Claim C6 — counterexample to the claim as stated.  The empty splay tree
is reachable (removing the seeded root), and insert(2, 5) on it is a no-op:
the tree stays empty, so it is not non-empty with root key 2. -/
theorem c6_counterexample_insert_on_empty :
    (SplayTree.remove (SplayTree.new 1 1) 1).1 = .leaf ∧
    SplayTree.insert .leaf 2 5 = .leaf ∧
    ¬ (SplayTree.insert .leaf 2 5 ≠ .leaf ∧
       TreeNode.root_key (SplayTree.insert .leaf 2 5) = some 2) := by
  decide

/-- Claim C6 as amended — after search(key) on an ordered splay tree that
contains the key, and after insert(key, val) on a NON-EMPTY splay tree (on
the reachable empty tree the insert is the no-op of claim C3's bug and the
tree stays empty), the tree is non-empty and the root carries the key. -/
theorem c6_splay_promotes (t : TreeNode) (key val : Int) :
    (TreeNode.ordered t = true → key ∈ TreeNode.keysOf t →
      TreeNode.root_key (SplayTree.search t key).1 = some key ∧
      (SplayTree.search t key).1 ≠ .leaf) ∧
    (t ≠ .leaf →
      TreeNode.root_key (SplayTree.insert t key val) = some key ∧
      SplayTree.insert t key val ≠ .leaf) := by
  constructor
  · intro ho hmem
    cases t with
    | leaf => simp [TreeNode.keysOf, TreeNode.inorder] at hmem
    | node k0 v0 h0 l0 r0 =>
      obtain ⟨κ, w, h2, L, R, hs, hroot, hio⟩ :=
        searchin_spec (.node k0 v0 h0 l0 r0) key (by simp)
      obtain ⟨w2, hw2, -⟩ := descend_found _ key ho hmem
      rw [hroot] at hw2
      simp only [Option.some_inj, Prod.mk.injEq] at hw2
      have hfst : (SplayTree.search (.node k0 v0 h0 l0 r0) key).1 =
          .node κ w h2 L R := by
        simp only [SplayTree.search, hs]
        split_ifs <;> rfl
      rw [hfst]
      exact ⟨by simp [TreeNode.root_key, TreeNode.root_pair, hw2.1], by simp⟩
  · intro hne
    obtain ⟨κ, w, h2, L, R, hs, hroot, hio⟩ := searchin_spec t key hne
    have hunf : SplayTree.insert t key val =
        (if κ = key then (.node κ val h2 L R : TreeNode)
         else if κ < key then
           TreeNode.update_height (.node key val h2
             (TreeNode.update_height (.node κ w 1 L .leaf)) R)
         else
           TreeNode.update_height (.node key val h2 L
             (TreeNode.update_height (.node κ w 1 .leaf R)))) := by
      simp only [SplayTree.insert, hs]
    rw [hunf]
    split_ifs with hκ hκlt
    · subst hκ
      exact ⟨rfl, by simp⟩
    · exact ⟨by simp [TreeNode.root_key, TreeNode.root_pair, TreeNode.update_height],
        by simp [TreeNode.update_height]⟩
    · exact ⟨by simp [TreeNode.root_key, TreeNode.root_pair, TreeNode.update_height],
        by simp [TreeNode.update_height]⟩

/-- Witness for the amended C6 at concrete inputs: searching present key 3
promotes it to the root; inserting key 2 into the same non-empty tree puts 2
at the root. -/
theorem c6_splay_promotes_witness :
    (TreeNode.ordered (.node 1 10 2 .leaf (.node 3 30 1 .leaf .leaf)) = true ∧
      (3 : Int) ∈ TreeNode.keysOf (.node 1 10 2 .leaf (.node 3 30 1 .leaf .leaf)) ∧
      (.node 1 10 2 .leaf (.node 3 30 1 .leaf .leaf) : TreeNode) ≠ .leaf) ∧
    (TreeNode.root_key
        (SplayTree.search (.node 1 10 2 .leaf (.node 3 30 1 .leaf .leaf)) 3).1 =
          some 3 ∧
      (SplayTree.search (.node 1 10 2 .leaf (.node 3 30 1 .leaf .leaf)) 3).1 ≠
        .leaf) ∧
    (TreeNode.root_key
        (SplayTree.insert (.node 1 10 2 .leaf (.node 3 30 1 .leaf .leaf)) 2 9) =
          some 2 ∧
      SplayTree.insert (.node 1 10 2 .leaf (.node 3 30 1 .leaf .leaf)) 2 9 ≠
        .leaf) :=
  ⟨⟨by decide, by decide, by decide⟩,
   (c6_splay_promotes (.node 1 10 2 .leaf (.node 3 30 1 .leaf .leaf)) 3 0).1
     (by decide) (by decide),
   (c6_splay_promotes (.node 1 10 2 .leaf (.node 3 30 1 .leaf .leaf)) 2 9).2
     (by decide)⟩

theorem bst_insertGo_heights : ∀ (t : TreeNode) (k v : Int),
    TreeNode.all_heights_one t = true →
    TreeNode.all_heights_one (BinarySearchTree.insertGo t k v) = true
  | .leaf, k, v, _ => by
    simp [BinarySearchTree.insertGo, TreeNode.new, TreeNode.all_heights_one]
  | .node key val h l r, k, v, hh => by
    simp only [TreeNode.all_heights_one, Bool.and_eq_true, decide_eq_true_eq] at hh
    obtain ⟨⟨h1, hl⟩, hr⟩ := hh
    simp only [BinarySearchTree.insertGo]
    split_ifs <;>
      simp [TreeNode.all_heights_one, h1, hl, hr,
        bst_insertGo_heights l k v hl, bst_insertGo_heights r k v hr]

theorem bst_spliceMin_heights : ∀ (t : TreeNode),
    TreeNode.all_heights_one t = true →
    TreeNode.all_heights_one (BinarySearchTree.spliceMin t).1 = true
  | .leaf, _ => rfl
  | .node k v h0 .leaf r, hh => by
    simp only [TreeNode.all_heights_one, Bool.and_eq_true] at hh
    simpa [BinarySearchTree.spliceMin] using hh.2
  | .node k v h0 (.node lk lv lh .leaf lr) r, hh => by
    simp only [TreeNode.all_heights_one, Bool.and_eq_true, decide_eq_true_eq] at hh
    obtain ⟨⟨h1, ⟨⟨hlh, -⟩, hlr⟩⟩, hr⟩ := hh
    simp [BinarySearchTree.spliceMin, TreeNode.all_heights_one, h1, hlr, hr]
  | .node k v h0 (.node lk lv lh (.node a b c d e) lr) r, hh => by
    simp only [TreeNode.all_heights_one, Bool.and_eq_true, decide_eq_true_eq] at hh
    obtain ⟨⟨h1, hl⟩, hr⟩ := hh
    have ih := bst_spliceMin_heights (.node lk lv lh (.node a b c d e) lr)
      (by simp only [TreeNode.all_heights_one, Bool.and_eq_true, decide_eq_true_eq]
          exact hl)
    simp only [BinarySearchTree.spliceMin] at ih ⊢
    simp [TreeNode.all_heights_one, h1, hr, ih]

theorem bst_removeGo_heights : ∀ (t : TreeNode) (key : Int),
    TreeNode.all_heights_one t = true →
    RmRes.heights_ok1 (BinarySearchTree.removeGo t key)
  | .leaf, key, _ => trivial
  | .node k v h l r, key, hh => by
    simp only [TreeNode.all_heights_one, Bool.and_eq_true, decide_eq_true_eq] at hh
    obtain ⟨⟨h1, hl⟩, hr⟩ := hh
    simp only [BinarySearchTree.removeGo]
    split_ifs with hc1 hc2
    · have ih := bst_removeGo_heights r key hr
      cases hres : BinarySearchTree.removeGo r key with
      | notFound => exact trivial
      | removed r2 rv =>
        rw [hres] at ih
        simp only [RmRes.heights_ok1] at ih ⊢
        simp [TreeNode.all_heights_one, h1, hl, ih]
      | leafTarget tv =>
        cases l with
        | leaf =>
          simp [RmRes.heights_ok1, TreeNode.all_heights_one, h1]
        | node lk lv lh ll lr =>
          by_cases hv : lv = tv <;>
            simp only [hv, if_pos, if_neg, RmRes.heights_ok1] <;>
            simp_all [TreeNode.all_heights_one]
    · have ih := bst_removeGo_heights l key hl
      cases hres : BinarySearchTree.removeGo l key with
      | notFound => exact trivial
      | removed l2 rv =>
        rw [hres] at ih
        simp only [RmRes.heights_ok1] at ih ⊢
        simp [TreeNode.all_heights_one, h1, hr, ih]
      | leafTarget tv =>
        simp [RmRes.heights_ok1, TreeNode.all_heights_one, h1, hr]
    · cases l with
      | leaf =>
        cases r with
        | leaf => exact trivial
        | node rk rv rh rl rr =>
          simp only [RmRes.heights_ok1]
          simpa [TreeNode.all_heights_one] using hr
      | node lk lv lh ll lr =>
        cases r with
        | leaf =>
          simp only [RmRes.heights_ok1]
          simpa [TreeNode.all_heights_one] using hl
        | node rk rv rh rl rr =>
          cases rl with
          | leaf =>
            simp only [RmRes.heights_ok1]
            simp_all [TreeNode.all_heights_one]
          | node a b c d e =>
            have ihs := bst_spliceMin_heights (.node rk rv rh (.node a b c d e) rr) hr
            simp only [RmRes.heights_ok1]
            simp_all [TreeNode.all_heights_one]

theorem bst_applyOp_heights (t : TreeNode) (op : Op)
    (hh : TreeNode.all_heights_one t = true) :
    TreeNode.all_heights_one (BinarySearchTree.applyOp t op) = true := by
  cases op with
  | search k => exact hh
  | insert k v =>
    cases t with
    | leaf => exact hh
    | node k0 v0 h0 l0 r0 => exact bst_insertGo_heights _ k v hh
  | remove k =>
    have ih := bst_removeGo_heights t k hh
    simp only [BinarySearchTree.applyOp, BinarySearchTree.remove]
    cases hres : BinarySearchTree.removeGo t k with
    | notFound => exact hh
    | removed t2 rv => rw [hres] at ih; exact ih
    | leafTarget tv => rfl

/-- Claim C10 — confirmed.  Every node of a BinarySearchTree reached from
new by any operation sequence has stored height exactly 1: TreeNode::new
writes height 1 and no operation of the unbalanced engine ever calls
update_height or touches a height field. -/
theorem c10_bst_heights_always_one (k0 v0 : Int) (ops : List Op) :
    TreeNode.all_heights_one (BinarySearchTree.run k0 v0 ops) = true := by
  suffices hstep : ∀ (l : List Op) (t : TreeNode),
      TreeNode.all_heights_one t = true →
      TreeNode.all_heights_one (l.foldl BinarySearchTree.applyOp t) = true by
    refine hstep ops _ ?_
    simp [BinarySearchTree.new, TreeNode.new, TreeNode.all_heights_one]
  intro l
  induction l with
  | nil => exact fun t h => h
  | cons op rest ih => exact fun t ht => ih _ (bst_applyOp_heights t op ht)

theorem last_inserted_aux (q : Int) : ∀ (ops : List (Int × Int)) (a : Option Int),
    ops.foldl (fun acc p => if p.1 = q then some p.2 else acc) a =
      match ops.foldl (fun acc p => if p.1 = q then some p.2 else acc) none with
      | some w => some w
      | none => a := by
  intro ops
  induction ops with
  | nil => intro a; rfl
  | cons p rest ih =>
    intro a
    simp only [List.foldl_cons]
    rw [ih (if p.1 = q then some p.2 else a),
      ih (if p.1 = q then some p.2 else none)]
    cases rest.foldl (fun acc p => if p.1 = q then some p.2 else acc) none with
    | some w => rfl
    | none => by_cases hp : p.1 = q <;> simp [hp]

theorem last_inserted_cons (p : Int × Int) (rest : List (Int × Int)) (q : Int) :
    last_inserted (p :: rest) q =
      match last_inserted rest q with
      | some w => some w
      | none => if p.1 = q then some p.2 else none := by
  simp only [last_inserted, List.foldl_cons]
  exact last_inserted_aux q rest _

/-- Folding a list of inserts through any engine whose insert satisfies the
map-update specification: the final association view reports the last
inserted value per key. -/
theorem roundtrip_aux (ins : TreeNode → Int → Int → TreeNode)
    (hspec : ∀ t k v, TreeNode.ordered t = true → t ≠ .leaf →
      TreeNode.ordered (ins t k v) = true ∧ ins t k v ≠ .leaf ∧
      ∀ q, assoc (TreeNode.inorder (ins t k v)) q =
        if q = k then some v else assoc (TreeNode.inorder t) q) :
    ∀ (ops : List (Int × Int)) (t : TreeNode),
      TreeNode.ordered t = true → t ≠ .leaf →
      TreeNode.ordered (ops.foldl (fun s p => ins s p.1 p.2) t) = true ∧
      (ops.foldl (fun s p => ins s p.1 p.2) t) ≠ .leaf ∧
      ∀ q, assoc (TreeNode.inorder (ops.foldl (fun s p => ins s p.1 p.2) t)) q =
        match last_inserted ops q with
        | some w => some w
        | none => assoc (TreeNode.inorder t) q := by
  intro ops
  induction ops with
  | nil =>
    intro t ho hne
    exact ⟨ho, hne, fun q => by simp [last_inserted]⟩
  | cons p rest ih =>
    intro t ho hne
    obtain ⟨ho2, hne2, hq2⟩ := hspec t p.1 p.2 ho hne
    obtain ⟨ho3, hne3, hq3⟩ := ih (ins t p.1 p.2) ho2 hne2
    refine ⟨ho3, hne3, ?_⟩
    intro q
    simp only [List.foldl_cons]
    rw [hq3 q, last_inserted_cons]
    cases last_inserted rest q with
    | some w => rfl
    | none =>
      rw [hq2 q]
      by_cases hp : q = p.1
      · subst hp
        simp
      · simp [hp, (show ¬(p.1 = q) from fun hcon => hp hcon.symm)]

/-- Claim C9 — confirmed.  For any insert sequence performed on a newly
constructed tree of any engine, searching an inserted key afterwards returns
the value of the last insert performed for that key. -/
theorem c9_round_trip (k0 v0 : Int) (ops : List (Int × Int)) (k v : Int)
    (hlast : last_inserted ops k = some v) :
    BinarySearchTree.search (BinarySearchTree.runInserts k0 v0 ops) k = some v ∧
    AVLTree.search (AVLTree.runInserts k0 v0 ops) k = some v ∧
    (SplayTree.search (SplayTree.runInserts k0 v0 ops) k).2 = some v := by
  have hnew : (TreeNode.new k0 v0) ≠ .leaf := by simp [TreeNode.new]
  obtain ⟨hob, hnb, hqb⟩ := roundtrip_aux BinarySearchTree.insert
    (fun t k v ho hne => bst_insert_spec t k v ho hne) ops
    (BinarySearchTree.new k0 v0) (ordered_new k0 v0) hnew
  obtain ⟨hoa, hna, hqa⟩ := roundtrip_aux AVLTree.insert
    (fun t k v ho hne => avl_insert_spec t k v ho hne) ops
    (AVLTree.new k0 v0) (ordered_new k0 v0) hnew
  obtain ⟨hos, hns, hqs⟩ := roundtrip_aux SplayTree.insert
    (fun t k v ho hne =>
      let hsp := splay_insert_spec t k v ho hne
      ⟨hsp.1, hsp.2.1, hsp.2.2.2⟩) ops
    (SplayTree.new k0 v0) (ordered_new k0 v0) hnew
  refine ⟨?_, ?_, ?_⟩
  · rw [BinarySearchTree.runInserts, search_eq_assoc _ hob, hqb k, hlast]
  · rw [AVLTree.runInserts]
    show BinarySearchTree.search _ k = some v
    rw [search_eq_assoc _ hoa, hqa k, hlast]
  · rw [SplayTree.runInserts, (splay_search_spec _ k hos).2.2, hqs k, hlast]

/-- Witness for C9: inserting (2,5) then (2,7) after seeding with (1,1);
the last value for key 2 is 7 and every engine's search reports it. -/
theorem c9_round_trip_witness :
    last_inserted [((2 : Int), (5 : Int)), (2, 7)] 2 = some 7 ∧
    (BinarySearchTree.search (BinarySearchTree.runInserts 1 1 [(2, 5), (2, 7)]) 2 =
        some 7 ∧
      AVLTree.search (AVLTree.runInserts 1 1 [(2, 5), (2, 7)]) 2 = some 7 ∧
      (SplayTree.search (SplayTree.runInserts 1 1 [(2, 5), (2, 7)]) 2).2 = some 7) :=
  ⟨by decide, c9_round_trip 1 1 [(2, 5), (2, 7)] 2 7 (by decide)⟩
